import Mathlib

/-!
# AVLCollection: a shallow embedding of `avl_collection.h`

The C++ class `AVLCollection<K,V>` keeps a binary tree of heap nodes, each with a
key, a value, a stored `int height` and two child pointers, together with a
counter `tree_size`.  Here a pointer to a node is a value of the inductive type
`Node K V` (`Node.null` is `nullptr`), the stored height is an `Int` field that
the operations patch exactly as the source does (it is never recomputed from the
shape), and every function that dereferences a pointer returns an `Option`:
`none` stands for a read or write through `nullptr`.

The key type is any linear order (`<`, `==`, `>` of the template parameter `K`).
-/

namespace AVLCollection

/-- The node structure `struct Node { K key; V value; int height; Node* left; Node* right; }`;
`null` is the absent node `nullptr`. -/
inductive Node (K V : Type) where
  | null : Node K V
  | mk (key : K) (value : V) (height : Int) (left right : Node K V) : Node K V
  deriving DecidableEq

namespace Node

variable {K V : Type}

/-- The test `p == nullptr`. -/
def isNull : Node K V → Bool
  | null => true
  | mk _ _ _ _ _ => false

/-- The recurring idiom `int h = 0; if (p != nullptr) h = p->height;`. -/
def heightOrZero : Node K V → Int
  | null => 0
  | mk _ _ h _ _ => h

/-- The read `p->height`; fails on `nullptr`. -/
def readHeight : Node K V → Option Int
  | null => none
  | mk _ _ h _ _ => some h

/-- The write `p->height = h`; fails on `nullptr`. -/
def setHeight (h : Int) : Node K V → Option (Node K V)
  | null => none
  | mk k v _ l r => some (mk k v h l r)

/-- The updates `p->height++` (`d = 1`) and `p->height--` (`d = -1`); fail on `nullptr`. -/
def bumpHeight (d : Int) : Node K V → Option (Node K V)
  | null => none
  | mk k v h l r => some (mk k v (h + d) l r)

/-- An update performed through `p->left`: `f` acts on the left child of `p`. -/
def onLeft (f : Node K V → Option (Node K V)) : Node K V → Option (Node K V)
  | null => none
  | mk k v h l r => (f l).map fun l1 => mk k v h l1 r

/-- An update performed through `p->right`: `f` acts on the right child of `p`. -/
def onRight (f : Node K V → Option (Node K V)) : Node K V → Option (Node K V)
  | null => none
  | mk k v h l r => (f r).map fun r1 => mk k v h l r1

/-- `rotate_right(k2)`: `k1 = k2->left; k2->left = k1->right; k1->right = k2; return k1`.
No height is touched. -/
def rotate_right : Node K V → Option (Node K V)
  | mk k v h (mk k1 v1 h1 l1 r1) r => some (mk k1 v1 h1 l1 (mk k v h r1 r))
  | _ => none

/-- `rotate_left(k2)`: `k1 = k2->right; k2->right = k1->left; k1->left = k2; return k1`.
No height is touched. -/
def rotate_left : Node K V → Option (Node K V)
  | mk k v h l (mk k1 v1 h1 l1 r1) => some (mk k1 v1 h1 (mk k v h l l1) r1)
  | _ => none

/-- `rebalance(subtree_root)`, lines 328-398.  The heights of the rotated nodes are
patched with the constants the source uses (`++`, `--`, `tmpHeight`). -/
def rebalance : Node K V → Option (Node K V)
  | null => some null
  | mk k v h lptr rptr =>
    let heightL := heightOrZero lptr
    let heightR := heightOrZero rptr
    if heightL - heightR > 1 then
      -- `lptr -> left` and `lptr -> right` are read
      match lptr with
      | null => none
      | mk _ _ _ ll lr =>
        let heightLL := heightOrZero ll
        let heightLR := heightOrZero lr
        if heightLL ≤ heightLR then
          (readHeight lr).bind fun tmpHeight =>
          (rotate_left lptr).bind fun l1 =>
          (rotate_right (mk k v h l1 rptr)).bind fun s1 =>
          (bumpHeight 1 s1).bind fun s2 =>
          (onLeft (bumpHeight (-1)) s2).bind fun s3 =>
          onRight (setHeight tmpHeight) s3
        else
          (readHeight ll).bind fun tmpHeight =>
          (rotate_right (mk k v h lptr rptr)).bind fun s1 =>
          onRight (setHeight tmpHeight) s1
    else if heightL - heightR < -1 then
      match rptr with
      | null => none
      | mk _ _ _ rl rr =>
        let heightRL := heightOrZero rl
        let heightRR := heightOrZero rr
        if heightRL > heightRR then
          (readHeight rl).bind fun tmpHeight =>
          (rotate_right rptr).bind fun r1 =>
          (rotate_left (mk k v h lptr r1)).bind fun s1 =>
          (bumpHeight 1 s1).bind fun s2 =>
          (onRight (bumpHeight (-1)) s2).bind fun s3 =>
          onLeft (setHeight tmpHeight) s3
        else
          (readHeight rr).bind fun tmpHeight =>
          (rotate_left (mk k v h lptr rptr)).bind fun s1 =>
          onLeft (setHeight tmpHeight) s1
    else some (mk k v h lptr rptr)

variable [LinearOrder K]

/-- The loop of `find(search_key, the_val)`, lines 176-194, started at `cur`:
`some v` is `return true` with `the_val = v`, `none` is `return false` with
`the_val` untouched.  In a linear order the third test `search_key > cur->key`
holds whenever the first two fail, so the last `else` (the loop spinning on the
same node) is never taken. -/
def find : Node K V → K → Option V
  | null, _ => none
  | mk k v _ l r, search_key =>
    if search_key = k then some v
    else if search_key < k then find l search_key
    else if search_key > k then find r search_key
    else none

/-- The recursive helper `add(subtree_root, a_key, a_val)`, lines 401-438, with the
member `tree_size` threaded through: the result is the new subtree and the new
`tree_size`. -/
def add : Node K V → K → V → Int → Option (Node K V × Int)
  | null, a_key, a_val, tree_size =>
    (rebalance (mk a_key a_val 1 null null)).map fun s => (s, tree_size + 1)
  | mk k v h l r, a_key, a_val, tree_size =>
    (if a_key < k then
        (add l a_key a_val tree_size).map fun p => (p.1, r, p.2)
      else
        (add r a_key a_val tree_size).map fun p => (l, p.1, p.2)).bind fun q =>
    let l1 := q.1
    let r1 := q.2.1
    let treeH := h
    let heightL := heightOrZero l1
    let heightR := heightOrZero r1
    let biggerH := max heightL heightR
    let h1 := if treeH - biggerH ≤ 0 then h + 1 else h
    (rebalance (mk k v h1 l1 r1)).map fun s => (s, q.2.2)

/-- The successor walk of the two-children case of `remove`, lines 511-525, for a
node `p` whose left child exists: `prev` and `cur` run down the left spine from
`p`; at the end `cur` is the leftmost node, `prev` its parent, `prev->height` is
decremented when `prev->right == nullptr`, and `prev->left = cur->right`.
The result is the key and value of `cur`, its right child, and `p` after the
relinking. -/
def detach_successor : Node K V → Option (K × V × Node K V)
  | null => none
  | mk pk pv ph pl pr =>
    match pl with
    | null => none
    | mk ck cv _ cl cr =>
      match cl with
      | null => some (ck, cv, mk pk pv (if isNull pr then ph - 1 else ph) cr pr)
      | mk _ _ _ _ _ =>
        (detach_successor pl).map fun t => (t.1, t.2.1, mk pk pv ph t.2.2 pr)

/-- The ancestor height patch after `subtree_root->left = remove(...)`, lines 458-471:
`a` is the child that was just rewritten, `b` the other child. The mirrored patch
of lines 479-492 is the same with the roles exchanged. -/
def patchHeight (h : Int) (a b : Node K V) : Int :=
  match b with
  | null => h - 1
  | mk _ _ hb _ _ =>
    match a with
    | null => h
    | mk _ _ ha _ _ =>
      if hb < ha then
        (if h - ha > 1 then h - 1 else h)
      else if ha = hb then
        (if h - ha > 1 then h - 1 else h)
      else h

/-- The removal at `subtree_root` itself, lines 497-549, for a node with stored
height `tmpHeight` and children `l` and `r`: the new `subtree_root` before
`tree_size--` and the final `rebalance`.  With no child it is `nullptr`; with one
child it is that child; with two children it is the in-order successor `cur`,
relinked above `l` and what is left of `r`, with `height = tmpHeight`. -/
def unlink (tmpHeight : Int) (l r : Node K V) : Option (Node K V) :=
  match l, r with
  | null, null => some null
  | mk lk lv lh ll lr, mk rk rv rh rl rr =>
    (match rl with
      | null => some (mk rk rv tmpHeight (mk lk lv lh ll lr) rr)
      | mk _ _ _ _ _ =>
        (detach_successor (mk rk rv rh rl rr)).map fun (t : K × V × Node K V) =>
          mk t.1 t.2.1 tmpHeight (mk lk lv lh ll lr) t.2.2)
  | mk lk lv lh ll lr, null => some (mk lk lv lh ll lr)
  | null, mk rk rv rh rl rr => some (mk rk rv rh rl rr)

/-- The recursive helper `remove(key, subtree_root)`, lines 441-554.  `root` is the
member `this->root` that the inner call `find(key, val)` searches (it is not
reassigned until the outermost call returns), and `tree_size` is threaded through.
The first statement reads `subtree_root -> height`, before any test for `nullptr`. -/
def remove (root : Node K V) (key : K) : Node K V → Int → Option (Node K V × Int)
  | null, _ => none
  | mk k v h l r, tree_size =>
    match find root key with
    | none => some (mk k v h l r, tree_size)
    | some _ =>
      if key < k then
        (remove root key l tree_size).bind fun p =>
        let h1 := patchHeight h p.1 r
        (rebalance (mk k v h1 p.1 r)).bind fun s =>
        (rebalance s).map fun s1 => (s1, p.2)
      else if key > k then
        (remove root key r tree_size).bind fun p =>
        let h1 := patchHeight h p.1 l
        (rebalance (mk k v h1 l p.1)).bind fun s =>
        (rebalance s).map fun s1 => (s1, p.2)
      else if key = k then
        (unlink h l r).bind fun s =>
        (rebalance s).map fun s1 => (s1, tree_size - 1)
      else (rebalance (mk k v h l r)).map fun s1 => (s1, tree_size)

/-- The places where a call of the `remove` helper can read a field through
`nullptr`. -/
inductive Fault where
  /-- `subtree_root -> height` on entry, line 446, with `subtree_root == nullptr`. -/
  | entry : Fault
  /-- The successor walk and relinking of the two-children case, lines 511-528. -/
  | successor : Fault
  /-- A read inside `rebalance`, lines 352-394. -/
  | rebalancing : Fault
  deriving DecidableEq

/-- Tag a failed read with the place it happens at. -/
def orFault {α : Type} (f : Fault) : Option α → Except Fault α
  | some a => Except.ok a
  | none => Except.error f

/-- The fault of a result, if it is one. -/
def faultOf {α : Type} : Except Fault α → Option Fault
  | Except.ok _ => none
  | Except.error f => some f

/-- The recursive helper `remove(key, subtree_root)`, lines 441-554, once more, now
recording which read goes through `nullptr` when one does.  It is `remove` with
every `none` replaced by the fault of the statement that produces it. -/
def remove_traced (root : Node K V) (key : K) :
    Node K V → Int → Except Fault (Node K V × Int)
  | null, _ => Except.error Fault.entry
  | mk k v h l r, tree_size =>
    match find root key with
    | none => Except.ok (mk k v h l r, tree_size)
    | some _ =>
      if key < k then
        (remove_traced root key l tree_size).bind fun p =>
        let h1 := patchHeight h p.1 r
        (orFault Fault.rebalancing (rebalance (mk k v h1 p.1 r))).bind fun s =>
        (orFault Fault.rebalancing (rebalance s)).map fun s1 => (s1, p.2)
      else if key > k then
        (remove_traced root key r tree_size).bind fun p =>
        let h1 := patchHeight h p.1 l
        (orFault Fault.rebalancing (rebalance (mk k v h1 l p.1))).bind fun s =>
        (orFault Fault.rebalancing (rebalance s)).map fun s1 => (s1, p.2)
      else if key = k then
        (orFault Fault.successor (unlink h l r)).bind fun s =>
        (orFault Fault.rebalancing (rebalance s)).map fun s1 => (s1, tree_size - 1)
      else (orFault Fault.rebalancing (rebalance (mk k v h l r))).map fun s1 => (s1, tree_size)

/-- `inorder(subtree_root, keys)`, lines 259-268: `keys` is the vector the caller
passes in; the result is the vector after every `push_back`. -/
def inorder : Node K V → List K → List K
  | null, keys => keys
  | mk k _ _ l r, keys => inorder r (inorder l keys ++ [k])

/-- The loop of `find(search_key, the_val)`, lines 176-194, with the output
parameter made explicit: the result is the returned `bool` together with
`the_val` after the call.  `the_val` is assigned only on the `return true` path. -/
def find_loop : Node K V → K → V → Bool × V
  | null, _, the_val => (false, the_val)
  | mk k v _ l r, search_key, the_val =>
    if search_key = k then (true, v)
    else if search_key < k then find_loop l search_key the_val
    else if search_key > k then find_loop r search_key the_val
    else (false, the_val)

/-- `range_search(subtree_root, k1, k2, vals)`, lines 271-288; the result is `vals`
after every `push_back`.  Inside the `if` the local pointer `subtree_root` may be
moved to its right child (`k1 > key`) and then to the left child of what it then
points to (`k2 < key`); the two recursive calls read `subtree_root -> right` and
`subtree_root -> left` of the pointer as it then is, which fails when it is
`nullptr`. -/
def range_search : Node K V → K → K → List V → Option (List V)
  | null, _, _, vals => some vals
  | mk k v _ l r, k1, k2, vals =>
    if k1 ≤ k ∧ k2 ≥ k then
      let vals1 := vals ++ [v]
      if k1 > k then
        -- `subtree_root = subtree_root -> right`
        match r with
        | null => none
        | mk rk _ _ rl rr =>
          if k2 < rk then
            -- `subtree_root = subtree_root -> left`
            match rl with
            | null => none
            | mk _ _ _ rll rlr =>
              (range_search rlr k1 k2 vals1).bind fun vals2 => range_search rll k1 k2 vals2
          else
            (range_search rr k1 k2 vals1).bind fun vals2 => range_search rl k1 k2 vals2
      else if k2 < k then
        -- `subtree_root = subtree_root -> left`
        match l with
        | null => none
        | mk _ _ _ ll lr =>
          (range_search lr k1 k2 vals1).bind fun vals2 => range_search ll k1 k2 vals2
      else
        (range_search r k1 k2 vals1).bind fun vals2 => range_search l k1 k2 vals2
    else
      (range_search r k1 k2 vals).bind fun vals2 => range_search l k1 k2 vals2

/-! ### Observations used to state the properties -/

/-- The (key, value) pairs of a tree in in-order (left, self, right). -/
def toList : Node K V → List (K × V)
  | null => []
  | mk k v _ l r => toList l ++ (k, v) :: toList r

/-- The number of nodes of a tree. -/
def count : Node K V → Nat
  | null => 0
  | mk _ _ _ l r => count l + 1 + count r

/-- The number of nodes on the longest path from the root down to a leaf. -/
def depth : Node K V → Nat
  | null => 0
  | mk _ _ _ l r => 1 + max (depth l) (depth r)

/-- Height invariant at every node: the stored height is one more than the larger
stored height of the two children, an absent child counting as 0. -/
def heightInv : Node K V → Prop
  | null => True
  | mk _ _ h l r =>
    h = 1 + max (heightOrZero l) (heightOrZero r) ∧ heightInv l ∧ heightInv r

/-- Balance invariant at every node: the stored heights of the two children, an
absent child counting as 0, differ by at most 1. -/
def balanced : Node K V → Prop
  | null => True
  | mk _ _ _ l r =>
    (heightOrZero l - heightOrZero r ≤ 1 ∧ heightOrZero r - heightOrZero l ≤ 1) ∧
      balanced l ∧ balanced r

/-- Balance of the shape itself: at every node the depths of the two subtrees
differ by at most 1. -/
def depthBalanced : Node K V → Prop
  | null => True
  | mk _ _ _ l r =>
    (depth l ≤ depth r + 1 ∧ depth r ≤ depth l + 1) ∧ depthBalanced l ∧ depthBalanced r

/-- The two children of a node have different stored heights (false for `null`). -/
def unequal : Node K V → Prop
  | null => False
  | mk _ _ _ l r => heightOrZero l ≠ heightOrZero r

/-- The keys of a tree in in-order. -/
def keysOf (t : Node K V) : List K := (toList t).map Prod.fst

/-- Search-tree invariant as the specification words it: at every node every key
of the left subtree is strictly less than the node's key and every key of the
right subtree is greater than or equal to it. -/
def searchTree : Node K V → Prop
  | null => True
  | mk k _ _ l r =>
    (∀ x ∈ keysOf l, x < k) ∧ (∀ x ∈ keysOf r, k ≤ x) ∧ searchTree l ∧ searchTree r

/-- Search-tree invariant with equal keys allowed on both sides: at every node every
key of the left subtree is at most the node's key and every key of the right
subtree is at least the node's key. -/
def searchTreeWeak : Node K V → Prop
  | null => True
  | mk k _ _ l r =>
    (∀ x ∈ keysOf l, x ≤ k) ∧ (∀ x ∈ keysOf r, k ≤ x) ∧ searchTreeWeak l ∧ searchTreeWeak r

/-- Every node of the tree has stored height at least 1. -/
def positiveHeights : Node K V → Prop
  | null => True
  | mk _ _ h l r => 1 ≤ h ∧ positiveHeights l ∧ positiveHeights r

/-- The Fibonacci numbers with `fib 1 = fib 2 = 1`. -/
def fib : Nat → Nat
  | 0 => 0
  | 1 => 1
  | n + 2 => fib n + fib (n + 1)

/-- The height invariant can be checked by running over the tree. -/
instance decHeightInv : (t : Node K V) → Decidable (heightInv t)
  | null => isTrue trivial
  | mk _ _ h l r =>
    have := decHeightInv l
    have := decHeightInv r
    inferInstanceAs (Decidable
      (h = 1 + max (heightOrZero l) (heightOrZero r) ∧ heightInv l ∧ heightInv r))

/-- The balance invariant can be checked by running over the tree. -/
instance decBalanced : (t : Node K V) → Decidable (balanced t)
  | null => isTrue trivial
  | mk _ _ _ l r =>
    have := decBalanced l
    have := decBalanced r
    inferInstanceAs (Decidable
      ((heightOrZero l - heightOrZero r ≤ 1 ∧ heightOrZero r - heightOrZero l ≤ 1) ∧
        balanced l ∧ balanced r))

/-- Height invariant at one node only: its stored height is one more than the
larger stored height of its two children (true for `null`). -/
def heightAt : Node K V → Prop
  | null => True
  | mk _ _ h l r => h = 1 + max (heightOrZero l) (heightOrZero r)

/-- Balance invariant at one node only: the stored heights of its two children
differ by at most 1 (true for `null`). -/
def balancedAt : Node K V → Prop
  | null => True
  | mk _ _ _ l r => heightOrZero l - heightOrZero r ≤ 1 ∧ heightOrZero r - heightOrZero l ≤ 1

/-- The height invariant at one node can be checked. -/
instance decHeightAt : (t : Node K V) → Decidable (heightAt t)
  | null => isTrue trivial
  | mk _ _ h l r =>
    inferInstanceAs (Decidable (h = 1 + max (heightOrZero l) (heightOrZero r)))

/-- The balance invariant at one node can be checked. -/
instance decBalancedAt : (t : Node K V) → Decidable (balancedAt t)
  | null => isTrue trivial
  | mk _ _ _ l r =>
    inferInstanceAs (Decidable
      (heightOrZero l - heightOrZero r ≤ 1 ∧ heightOrZero r - heightOrZero l ≤ 1))

/-- The search-tree invariant can be checked by running over the tree. -/
instance decSearchTree : (t : Node K V) → Decidable (searchTree t)
  | null => isTrue trivial
  | mk k _ _ l r =>
    have := decSearchTree l
    have := decSearchTree r
    inferInstanceAs (Decidable
      ((∀ x ∈ keysOf l, x < k) ∧ (∀ x ∈ keysOf r, k ≤ x) ∧ searchTree l ∧ searchTree r))

/-- The weak search-tree invariant can be checked by running over the tree. -/
instance decSearchTreeWeak : (t : Node K V) → Decidable (searchTreeWeak t)
  | null => isTrue trivial
  | mk k _ _ l r =>
    have := decSearchTreeWeak l
    have := decSearchTreeWeak r
    inferInstanceAs (Decidable
      ((∀ x ∈ keysOf l, x ≤ k) ∧ (∀ x ∈ keysOf r, k ≤ x) ∧
        searchTreeWeak l ∧ searchTreeWeak r))

/-- Positivity of the stored heights can be checked by running over the tree. -/
instance decPositiveHeights : (t : Node K V) → Decidable (positiveHeights t)
  | null => isTrue trivial
  | mk _ _ h l r =>
    have := decPositiveHeights l
    have := decPositiveHeights r
    inferInstanceAs (Decidable (1 ≤ h ∧ positiveHeights l ∧ positiveHeights r))

/-- Balance of the shape can be checked by running over the tree. -/
instance decDepthBalanced : (t : Node K V) → Decidable (depthBalanced t)
  | null => isTrue trivial
  | mk _ _ _ l r =>
    have := decDepthBalanced l
    have := decDepthBalanced r
    inferInstanceAs (Decidable
      ((depth l ≤ depth r + 1 ∧ depth r ≤ depth l + 1) ∧ depthBalanced l ∧ depthBalanced r))

end Node

end AVLCollection

/-- The class `AVLCollection<K,V>`: its two data members. -/
structure AVLCollection (K V : Type) where
  tree_size : Int
  root : AVLCollection.Node K V
  deriving DecidableEq

namespace AVLCollection

open Node

variable {K V : Type} [LinearOrder K]

/-- The constructor `AVLCollection()`: `root = nullptr; tree_size = 0`. -/
def empty : AVLCollection K V := ⟨0, Node.null⟩

/-- The public `add(a_key, a_val)`: `root = add(root, a_key, a_val)`. -/
def add (c : AVLCollection K V) (a_key : K) (a_val : V) : Option (AVLCollection K V) :=
  (Node.add c.root a_key a_val c.tree_size).map fun p => ⟨p.2, p.1⟩

/-- The public `remove(a_key)`: `root = remove(a_key, root)`. -/
def remove (c : AVLCollection K V) (a_key : K) : Option (AVLCollection K V) :=
  (Node.remove c.root a_key c.root c.tree_size).map fun p => ⟨p.2, p.1⟩

/-- The public `find(search_key, the_val)`. -/
def find (c : AVLCollection K V) (search_key : K) : Option V :=
  Node.find c.root search_key

/-- The public `keys(all_keys)`: `inorder(root, all_keys)`. -/
def keys (c : AVLCollection K V) (all_keys : List K) : List K :=
  Node.inorder c.root all_keys

/-- The public `sort(all_keys_sorted)`: `keys(all_keys_sorted)`. -/
def sort (c : AVLCollection K V) (all_keys_sorted : List K) : List K :=
  c.keys all_keys_sorted

/-- The public `size()`: `return tree_size`. -/
def size (c : AVLCollection K V) : Int := c.tree_size

/-- The public `height()`: `if (!root) return 0; return root->height`. -/
def height (c : AVLCollection K V) : Int := heightOrZero c.root

/-- The public `find(search_key, the_val)` with its output parameter: the returned
`bool` and `the_val` after the call. -/
def find_val (c : AVLCollection K V) (search_key : K) (the_val : V) : Bool × V :=
  Node.find_loop c.root search_key the_val

/-- The public range `find(k1, k2, vals)`: `range_search(root, k1, k2, vals)`. -/
def find_range (c : AVLCollection K V) (k1 k2 : K) (vals : List V) : Option (List V) :=
  Node.range_search c.root k1 k2 vals

/-- `preorder_copy(subtree_root_src, subtree_root_dst)`, lines 291-300, run on the
collection `c` (the object `this`): the public `add` is called on `c` for the
source node, then for its left subtree, then for its right subtree.  The second
argument of the source is never used. -/
def preorder_copy : Node K V → AVLCollection K V → Option (AVLCollection K V)
  | null, c => some c
  | Node.mk k v _ l r, c =>
    (c.add k v).bind fun c1 =>
    (preorder_copy l c1).bind fun c2 => preorder_copy r c2

/-- The assignment `*this = rhs` for two distinct objects, lines 132-144:
`make_empty(root); root = nullptr; tree_size = 0; preorder_copy(rhs.root, root)`.
What `this` held before is released and plays no part in the result. -/
def assign (_this rhs : AVLCollection K V) : Option (AVLCollection K V) :=
  preorder_copy rhs.root ⟨0, null⟩

/-- The copy constructor, lines 122-129: `root = nullptr; tree_size = 0; *this = rhs`. -/
def copy (rhs : AVLCollection K V) : Option (AVLCollection K V) :=
  assign ⟨0, null⟩ rhs

/-- One call of a mutating public method. -/
inductive Call (K V : Type) where
  | add (a_key : K) (a_val : V) : Call K V
  | remove (a_key : K) : Call K V
  deriving DecidableEq

/-- Perform one call. -/
def call (c : AVLCollection K V) : Call K V → Option (AVLCollection K V)
  | Call.add a_key a_val => c.add a_key a_val
  | Call.remove a_key => c.remove a_key

/-- Perform a sequence of calls, first to last; `none` as soon as one of them reads
through `nullptr`. -/
def calls : AVLCollection K V → List (Call K V) → Option (AVLCollection K V)
  | c, [] => some c
  | c, x :: xs => (call c x).bind fun c1 => calls c1 xs

/-- A collection is reachable when some finite sequence of `add` and `remove`
calls, each of which returns, leads to it from the empty collection. -/
def Reachable (c : AVLCollection K V) : Prop :=
  ∃ l : List (Call K V), calls empty l = some c

/-- What every reachable collection is shown to satisfy: the counter agrees with
the number of nodes, and the in-order key sequence is non-decreasing. -/
def Consistent (c : AVLCollection K V) : Prop :=
  c.tree_size = (count c.root : Int) ∧ (keysOf c.root).Pairwise (· ≤ ·)

/-- Insert the pairs of a list one after the other with `add`. -/
def addAll : AVLCollection K V → List (K × V) → Option (AVLCollection K V)
  | c, [] => some c
  | c, x :: xs => (c.add x.1 x.2).bind fun c1 => addAll c1 xs

end AVLCollection

/-! ## Lemmas about the helper functions -/

namespace AVLCollection

namespace Node

variable {K V : Type}

@[simp] theorem heightOrZero_null : heightOrZero (null : Node K V) = 0 := rfl

@[simp] theorem heightOrZero_mk (k : K) (v : V) (h : Int) (l r : Node K V) :
    heightOrZero (mk k v h l r) = h := rfl

theorem heightOrZero_nonneg {t : Node K V} (h : heightInv t) : 0 ≤ heightOrZero t := by
  induction t with
  | null => simp
  | mk k v h0 l r ihl ihr =>
    simp only [heightInv] at h
    have := ihl h.2.1
    have := ihr h.2.2
    simp only [heightOrZero_mk, heightOrZero_null]
    omega

theorem rebalance_of_balanced (k : K) (v : V) (h : Int) (l r : Node K V)
    (h1 : heightOrZero l - heightOrZero r ≤ 1) (h2 : heightOrZero r - heightOrZero l ≤ 1) :
    rebalance (mk k v h l r) = some (mk k v h l r) := by
  simp only [rebalance]
  rw [if_neg (by omega), if_neg (by omega)]

theorem rebalance_left_heavy (k : K) (v : V) (h : Int) (l r : Node K V)
    (hl : heightInv l) (bl : balanced l) (hr : heightInv r) (br : balanced r)
    (hd : heightOrZero l = heightOrZero r + 2) (hu : unequal l) :
    ∃ t1, rebalance (mk k v h l r) = some t1 ∧ heightInv t1 ∧ balanced t1 ∧
      heightOrZero t1 = heightOrZero l := by
  rcases l with _ | ⟨lk, lv, lh, ll, lr⟩
  · exact absurd hu (by simp [unequal])
  · simp only [heightInv] at hl
    simp only [balanced] at bl
    simp only [unequal] at hu
    simp only [heightOrZero_mk, heightOrZero_null] at hd
    have nll := heightOrZero_nonneg hl.2.1
    have nlr := heightOrZero_nonneg hl.2.2
    have nr := heightOrZero_nonneg hr
    simp only [rebalance, heightOrZero_mk, heightOrZero_null]
    rw [if_pos (by omega)]
    by_cases c : heightOrZero ll ≤ heightOrZero lr
    · rw [if_pos c]
      rcases lr with _ | ⟨lrk, lrv, lrh, lrl, lrr⟩
      · simp only [heightOrZero_mk, heightOrZero_null] at c hu nll
        omega
      · have hlr := hl.2.2
        have blr := bl.2.2
        simp only [heightInv] at hlr
        simp only [balanced] at blr
        simp only [heightOrZero_mk, heightOrZero_null] at c hu hl bl
        have n1 := heightOrZero_nonneg hlr.2.1
        have n2 := heightOrZero_nonneg hlr.2.2
        refine ⟨mk lrk lrv (lrh + 1) (mk lk lv (lh + -1) ll lrl) (mk k v lrh lrr r), ?_, ?_, ?_, ?_⟩
        · simp [readHeight, rotate_left, rotate_right, bumpHeight, onLeft, onRight, setHeight]
        · simp only [heightInv, heightOrZero_mk, heightOrZero_null]
          refine ⟨by omega, ⟨by omega, hl.2.1, hlr.2.1⟩, ⟨by omega, hlr.2.2, hr⟩⟩
        · simp only [balanced, heightOrZero_mk, heightOrZero_null]
          refine ⟨by omega, ⟨by omega, bl.2.1, blr.2.1⟩, ⟨by omega, blr.2.2, br⟩⟩
        · simp only [heightOrZero_mk, heightOrZero_null]; omega
    · rw [if_neg c]
      rcases ll with _ | ⟨llk, llv, llh, lll, llr⟩
      · simp only [heightOrZero_mk, heightOrZero_null] at c nlr
        omega
      · simp only [heightOrZero_mk, heightOrZero_null] at c hu hl bl
        refine ⟨mk lk lv lh (mk llk llv llh lll llr) (mk k v llh lr r), ?_, ?_, ?_, ?_⟩
        · simp [readHeight, rotate_left, rotate_right, bumpHeight, onLeft, onRight, setHeight]
        · simp only [heightInv, heightOrZero_mk, heightOrZero_null]
          refine ⟨by omega, hl.2.1, ⟨by omega, hl.2.2, hr⟩⟩
        · simp only [balanced, heightOrZero_mk, heightOrZero_null]
          refine ⟨by omega, bl.2.1, ⟨by omega, bl.2.2, br⟩⟩
        · simp only [heightOrZero_mk, heightOrZero_null]

theorem rebalance_right_heavy (k : K) (v : V) (h : Int) (l r : Node K V)
    (hl : heightInv l) (bl : balanced l) (hr : heightInv r) (br : balanced r)
    (hd : heightOrZero r = heightOrZero l + 2) (hu : unequal r) :
    ∃ t1, rebalance (mk k v h l r) = some t1 ∧ heightInv t1 ∧ balanced t1 ∧
      heightOrZero t1 = heightOrZero r := by
  rcases r with _ | ⟨rk, rv, rh, rl, rr⟩
  · exact absurd hu (by simp [unequal])
  · simp only [heightInv] at hr
    simp only [balanced] at br
    simp only [unequal] at hu
    simp only [heightOrZero_mk, heightOrZero_null] at hd
    have nrl := heightOrZero_nonneg hr.2.1
    have nrr := heightOrZero_nonneg hr.2.2
    have nl := heightOrZero_nonneg hl
    simp only [rebalance, heightOrZero_mk, heightOrZero_null]
    rw [if_neg (by omega), if_pos (by omega)]
    by_cases c : heightOrZero rl > heightOrZero rr
    · rw [if_pos c]
      rcases rl with _ | ⟨rlk, rlv, rlh, rll, rlr⟩
      · simp only [heightOrZero_mk, heightOrZero_null] at c hu nrr
        omega
      · have hrl := hr.2.1
        have brl := br.2.1
        simp only [heightInv] at hrl
        simp only [balanced] at brl
        simp only [heightOrZero_mk, heightOrZero_null] at c hu hr br
        have n1 := heightOrZero_nonneg hrl.2.1
        have n2 := heightOrZero_nonneg hrl.2.2
        refine ⟨mk rlk rlv (rlh + 1) (mk k v rlh l rll) (mk rk rv (rh + -1) rlr rr), ?_, ?_, ?_, ?_⟩
        · simp [readHeight, rotate_left, rotate_right, bumpHeight, onLeft, onRight, setHeight]
        · simp only [heightInv, heightOrZero_mk, heightOrZero_null]
          refine ⟨by omega, ⟨by omega, hl, hrl.2.1⟩, ⟨by omega, hrl.2.2, hr.2.2⟩⟩
        · simp only [balanced, heightOrZero_mk, heightOrZero_null]
          refine ⟨by omega, ⟨by omega, bl, brl.2.1⟩, ⟨by omega, brl.2.2, br.2.2⟩⟩
        · simp only [heightOrZero_mk, heightOrZero_null]; omega
    · rw [if_neg c]
      rcases rr with _ | ⟨rrk, rrv, rrh, rrl, rrr⟩
      · simp only [heightOrZero_mk, heightOrZero_null] at c hu nrl
        omega
      · simp only [heightOrZero_mk, heightOrZero_null] at c hu hr br
        refine ⟨mk rk rv rh (mk k v rrh l rl) (mk rrk rrv rrh rrl rrr), ?_, ?_, ?_, ?_⟩
        · simp [readHeight, rotate_left, rotate_right, bumpHeight, onLeft, onRight, setHeight]
        · simp only [heightInv, heightOrZero_mk, heightOrZero_null]
          refine ⟨by omega, ⟨by omega, hl, hr.2.1⟩, hr.2.2⟩
        · simp only [balanced, heightOrZero_mk, heightOrZero_null]
          refine ⟨by omega, ⟨by omega, bl, br.2.1⟩, br.2.2⟩
        · simp only [heightOrZero_mk, heightOrZero_null]

theorem rebalance_toList {t t1 : Node K V} (h : rebalance t = some t1) :
    toList t1 = toList t := by
  rcases t with _ | ⟨k, v, h0, l, r⟩
  · simp only [rebalance, Option.some.injEq] at h
    subst h; rfl
  · simp only [rebalance] at h
    split_ifs at h with c1 c2
    · rcases l with _ | ⟨lk, lv, lh, ll, lr⟩
      · simp at h
      · simp only at h
        split_ifs at h with c3
        · rcases lr with _ | ⟨lrk, lrv, lrh, lrl, lrr⟩
          · simp [readHeight] at h
          · simp [readHeight, rotate_left, rotate_right, bumpHeight, onLeft, onRight, setHeight] at h
            subst h
            simp [toList]
        · rcases ll with _ | ⟨llk, llv, llh, lll, llr⟩
          · simp [readHeight] at h
          · simp [readHeight, rotate_left, rotate_right, bumpHeight, onLeft, onRight, setHeight] at h
            subst h
            simp [toList]
    · rcases r with _ | ⟨rk, rv, rh, rl, rr⟩
      · simp at h
      · simp only at h
        split_ifs at h with c3
        · rcases rl with _ | ⟨rlk, rlv, rlh, rll, rlr⟩
          · simp [readHeight] at h
          · simp [readHeight, rotate_left, rotate_right, bumpHeight, onLeft, onRight, setHeight] at h
            subst h
            simp [toList]
        · rcases rr with _ | ⟨rrk, rrv, rrh, rrl, rrr⟩
          · simp [readHeight] at h
          · simp [readHeight, rotate_left, rotate_right, bumpHeight, onLeft, onRight, setHeight] at h
            subst h
            simp [toList]
    · simp only [Option.some.injEq] at h
      subst h; rfl

theorem count_eq_length (t : Node K V) : count t = (toList t).length := by
  induction t with
  | null => rfl
  | mk k v h l r ihl ihr => simp [count, toList, ihl, ihr]; omega

theorem inorder_eq (t : Node K V) (acc : List K) : inorder t acc = acc ++ keysOf t := by
  induction t generalizing acc with
  | null => simp [inorder, keysOf, toList]
  | mk k v h l r ihl ihr =>
    simp only [inorder, ihl, ihr]
    simp [keysOf, toList]

theorem detach_successor_last (pk : K) (pv : V) (ph : Int) (ck : K) (cv : V) (ch : Int)
    (cr pr : Node K V) :
    detach_successor (mk pk pv ph (mk ck cv ch null cr) pr)
      = some (ck, cv, mk pk pv (if isNull pr then ph - 1 else ph) cr pr) := rfl

theorem detach_successor_step (pk : K) (pv : V) (ph : Int) (ck : K) (cv : V) (ch : Int)
    (ek : K) (ev : V) (eh : Int) (el er cr pr : Node K V) :
    detach_successor (mk pk pv ph (mk ck cv ch (mk ek ev eh el er) cr) pr)
      = (detach_successor (mk ck cv ch (mk ek ev eh el er) cr)).map
          fun t => (t.1, t.2.1, mk pk pv ph t.2.2 pr) := rfl

theorem detach_successor_toList (p : Node K V) (t : K × V × Node K V)
    (h : detach_successor p = some t) : toList p = (t.1, t.2.1) :: toList t.2.2 := by
  induction p generalizing t with
  | null => simp [detach_successor] at h
  | mk pk pv ph pl pr ihl _ =>
    rcases pl with _ | ⟨ck, cv, ch, cl, cr⟩
    · simp [detach_successor] at h
    · rcases cl with _ | ⟨ek, ev, eh, el, er⟩
      · rw [detach_successor_last, Option.some.injEq] at h
        subst h
        simp [toList]
      · rw [detach_successor_step] at h
        cases e : detach_successor (mk ck cv ch (mk ek ev eh el er) cr) with
        | none => simp [e] at h
        | some u =>
          simp only [e, Option.map, Option.some.injEq] at h
          subst h
          have := ihl u e
          simp only [toList] at this ⊢
          simp [this]

theorem unlink_toList (h0 : Int) (l r s2 : Node K V) (hs2 : unlink h0 l r = some s2) :
    toList s2 = toList l ++ toList r := by
  rcases l with _ | ⟨lk, lv, lh, ll, lr⟩ <;> rcases r with _ | ⟨rk, rv, rh, rl, rr⟩
  · simp only [unlink, Option.some.injEq] at hs2; subst hs2; simp [toList]
  · simp only [unlink, Option.some.injEq] at hs2; subst hs2; simp [toList]
  · simp only [unlink, Option.some.injEq] at hs2; subst hs2; simp [toList]
  · rcases rl with _ | ⟨ek, ev, eh, el, er⟩
    · simp only [unlink, Option.some.injEq] at hs2; subst hs2; simp [toList]
    · simp only [unlink] at hs2
      cases e : detach_successor (mk rk rv rh (mk ek ev eh el er) rr) with
      | none => simp [e] at hs2
      | some u =>
        simp only [e, Option.map, Option.some.injEq] at hs2
        subst hs2
        have := detach_successor_toList _ u e
        simp only [toList] at this ⊢
        simp [this]

theorem keysOf_mk (k : K) (v : V) (h : Int) (l r : Node K V) :
    keysOf (mk k v h l r) = keysOf l ++ k :: keysOf r := by
  simp [keysOf, toList]

theorem detach_successor_total (pk : K) (pv : V) (ph : Int) (ck : K) (cv : V) (ch : Int)
    (cl cr pr : Node K V) :
    ∃ sk sv h1 l1, detach_successor (mk pk pv ph (mk ck cv ch cl cr) pr)
        = some (sk, sv, mk pk pv h1 l1 pr) ∧ (h1 = ph ∨ h1 = ph - 1) := by
  induction cl generalizing pk pv ph ck cv ch cr pr with
  | null =>
    refine ⟨ck, cv, if isNull pr then ph - 1 else ph, cr, detach_successor_last _ _ _ _ _ _ _ _, ?_⟩
    split_ifs
    · exact Or.inr rfl
    · exact Or.inl rfl
  | mk ek ev eh el er ihl _ =>
    obtain ⟨sk, sv, h1, l1, e, _⟩ := ihl ck cv ch ek ev eh er cr
    refine ⟨sk, sv, ph, mk ck cv h1 l1 cr, ?_, Or.inl rfl⟩
    rw [detach_successor_step, e]
    rfl

theorem unlink_two (h : Int) (lk : K) (lv : V) (lh : Int) (ll lr : Node K V)
    (rk : K) (rv : V) (rh : Int) (rl rr : Node K V) :
    ∃ sk sv r1, unlink h (mk lk lv lh ll lr) (mk rk rv rh rl rr)
        = some (mk sk sv h (mk lk lv lh ll lr) r1) ∧
      (r1 = rr ∨ heightOrZero r1 = rh ∨ heightOrZero r1 = rh - 1) := by
  rcases rl with _ | ⟨ek, ev, eh, el, er⟩
  · exact ⟨rk, rv, rr, rfl, Or.inl rfl⟩
  · obtain ⟨sk, sv, h1, l1, e, hh⟩ := detach_successor_total rk rv rh ek ev eh el er rr
    refine ⟨sk, sv, mk rk rv h1 l1 rr, ?_, ?_⟩
    · simp only [unlink, e, Option.map]
    · rcases hh with hh | hh
      · exact Or.inr (Or.inl (by simp [hh]))
      · exact Or.inr (Or.inr (by simp [hh]))

theorem unlink_total (h : Int) (l r : Node K V) : ∃ s, unlink h l r = some s := by
  rcases l with _ | ⟨lk, lv, lh, ll, lr⟩ <;> rcases r with _ | ⟨rk, rv, rh, rl, rr⟩
  · exact ⟨_, rfl⟩
  · exact ⟨_, rfl⟩
  · exact ⟨_, rfl⟩
  · obtain ⟨sk, sv, r1, e, _⟩ := unlink_two h lk lv lh ll lr rk rv rh rl rr
    exact ⟨_, e⟩

theorem rotate_right_toList (k : K) (v : V) (h : Int) (k1 : K) (v1 : V) (h1 : Int)
    (a b c : Node K V) :
    ∃ t, rotate_right (mk k v h (mk k1 v1 h1 a b) c) = some t ∧
      toList t = toList (mk k v h (mk k1 v1 h1 a b) c) :=
  ⟨mk k1 v1 h1 a (mk k v h b c), rfl, by simp [toList]⟩

theorem rotate_left_toList (k : K) (v : V) (h : Int) (k1 : K) (v1 : V) (h1 : Int)
    (a b c : Node K V) :
    ∃ t, rotate_left (mk k v h a (mk k1 v1 h1 b c)) = some t ∧
      toList t = toList (mk k v h a (mk k1 v1 h1 b c)) :=
  ⟨mk k1 v1 h1 (mk k v h a b) c, rfl, by simp [toList]⟩

theorem rebalance_right_heavy_settles (k : K) (v : V) (h : Int) (l r : Node K V)
    (hr : heightInv r) (br : balanced r) (hl0 : 0 ≤ heightOrZero l)
    (hd : heightOrZero r - heightOrZero l > 1) :
    ∃ s, rebalance (mk k v h l r) = some s ∧ rebalance s = some s ∧
      1 ≤ heightOrZero s ∧ heightOrZero s ≤ heightOrZero r := by
  rcases r with _ | ⟨rk, rv, rh, rl, rr⟩
  · simp only [heightOrZero_null] at hd
    omega
  · simp only [heightInv] at hr
    simp only [balanced] at br
    simp only [heightOrZero_mk] at hd
    have nrl := heightOrZero_nonneg hr.2.1
    have nrr := heightOrZero_nonneg hr.2.2
    simp only [rebalance, heightOrZero_mk]
    rw [if_neg (by omega), if_pos (by omega)]
    by_cases c : heightOrZero rl > heightOrZero rr
    · rw [if_pos c]
      rcases rl with _ | ⟨rlk, rlv, rlh, rll, rlr⟩
      · simp only [heightOrZero_null] at c
        omega
      · simp only [heightOrZero_mk] at c hr
        refine ⟨mk rlk rlv (rlh + 1) (mk k v rlh l rll) (mk rk rv (rh + -1) rlr rr), ?_, ?_, ?_, ?_⟩
        · simp [readHeight, rotate_left, rotate_right, bumpHeight, onLeft, onRight, setHeight]
        · exact rebalance_of_balanced _ _ _ _ _ (by simp only [heightOrZero_mk]; omega)
            (by simp only [heightOrZero_mk]; omega)
        · simp only [heightOrZero_mk]; omega
        · simp only [heightOrZero_mk]; omega
    · rw [if_neg c]
      rcases rr with _ | ⟨rrk, rrv, rrh, rrl, rrr⟩
      · simp only [heightOrZero_null] at c hr
        omega
      · simp only [heightOrZero_mk] at c hr
        refine ⟨mk rk rv rh (mk k v rrh l rl) (mk rrk rrv rrh rrl rrr), ?_, ?_, ?_, ?_⟩
        · simp [readHeight, rotate_left, rotate_right, bumpHeight, onLeft, onRight, setHeight]
        · exact rebalance_of_balanced _ _ _ _ _ (by simp only [heightOrZero_mk]; omega)
            (by simp only [heightOrZero_mk]; omega)
        · simp only [heightOrZero_mk]; omega
        · simp only [heightOrZero_mk]; omega

theorem rebalance_left_heavy_settles (k : K) (v : V) (h : Int) (l r : Node K V)
    (hl : heightInv l) (bl : balanced l) (hr0 : 0 ≤ heightOrZero r)
    (hd : heightOrZero l - heightOrZero r > 1) :
    ∃ s, rebalance (mk k v h l r) = some s ∧ rebalance s = some s ∧
      1 ≤ heightOrZero s ∧ heightOrZero s ≤ heightOrZero l := by
  rcases l with _ | ⟨lk, lv, lh, ll, lr⟩
  · simp only [heightOrZero_null] at hd
    omega
  · simp only [heightInv] at hl
    simp only [balanced] at bl
    simp only [heightOrZero_mk] at hd
    have nll := heightOrZero_nonneg hl.2.1
    have nlr := heightOrZero_nonneg hl.2.2
    simp only [rebalance, heightOrZero_mk]
    rw [if_pos (by omega)]
    by_cases c : heightOrZero ll ≤ heightOrZero lr
    · rw [if_pos c]
      rcases lr with _ | ⟨lrk, lrv, lrh, lrl, lrr⟩
      · simp only [heightOrZero_null] at c hl
        omega
      · simp only [heightOrZero_mk] at c hl
        refine ⟨mk lrk lrv (lrh + 1) (mk lk lv (lh + -1) ll lrl) (mk k v lrh lrr r), ?_, ?_, ?_, ?_⟩
        · simp [readHeight, rotate_left, rotate_right, bumpHeight, onLeft, onRight, setHeight]
        · exact rebalance_of_balanced _ _ _ _ _ (by simp only [heightOrZero_mk]; omega)
            (by simp only [heightOrZero_mk]; omega)
        · simp only [heightOrZero_mk]; omega
        · simp only [heightOrZero_mk]; omega
    · rw [if_neg c]
      rcases ll with _ | ⟨llk, llv, llh, lll, llr⟩
      · simp only [heightOrZero_null] at c
        omega
      · simp only [heightOrZero_mk] at c hl
        refine ⟨mk lk lv lh (mk llk llv llh lll llr) (mk k v llh lr r), ?_, ?_, ?_, ?_⟩
        · simp [readHeight, rotate_left, rotate_right, bumpHeight, onLeft, onRight, setHeight]
        · exact rebalance_of_balanced _ _ _ _ _ (by simp only [heightOrZero_mk]; omega)
            (by simp only [heightOrZero_mk]; omega)
        · simp only [heightOrZero_mk]; omega
        · simp only [heightOrZero_mk]; omega

theorem patchHeight_bounds (h : Int) (a b : Node K V) :
    h - 1 ≤ patchHeight h a b ∧ patchHeight h a b ≤ h := by
  rcases b with _ | ⟨bk, bv, bh, bl, br⟩
  · simp only [patchHeight]; omega
  · rcases a with _ | ⟨ak, av, ah, al, ar⟩
    · simp only [patchHeight]; omega
    · simp only [patchHeight]
      split_ifs <;> omega

variable [LinearOrder K]

theorem add_avl (t : Node K V) (a_key : K) (a_val : V) (s : Int)
    (ht : heightInv t) (bt : balanced t) :
    ∃ t1, add t a_key a_val s = some (t1, s + 1) ∧ heightInv t1 ∧ balanced t1 ∧
      (heightOrZero t1 = heightOrZero t ∨
        (heightOrZero t1 = heightOrZero t + 1 ∧ (t = null ∨ unequal t1))) := by
  induction t with
  | null =>
    refine ⟨mk a_key a_val 1 null null, ?_, ?_, ?_, ?_⟩
    · simp [add, rebalance]
    · simp [heightInv]
    · simp [balanced]
    · right; simp
  | mk k v h l r ihl ihr =>
    simp only [heightInv] at ht
    simp only [balanced] at bt
    have nl := heightOrZero_nonneg ht.2.1
    have nr := heightOrZero_nonneg ht.2.2
    by_cases c : a_key < k
    · obtain ⟨l1, e1, hl1, bl1, g1⟩ := ihl ht.2.1 bt.2.1
      simp only [add, if_pos c, e1, Option.map, Option.some_bind, heightOrZero_mk]
      have nl1 := heightOrZero_nonneg hl1
      by_cases d : heightOrZero l1 = heightOrZero r + 2
      · have hu : unequal l1 := by
          rcases g1 with g | ⟨g, g2 | g2⟩
          · omega
          · subst g2; simp only [heightOrZero_null] at *; omega
          · exact g2
        obtain ⟨t1, e2, a1, a2, a3⟩ :=
          rebalance_left_heavy k v (if h - max (heightOrZero l1) (heightOrZero r) ≤ 0 then h + 1 else h)
            l1 r hl1 bl1 ht.2.2 bt.2.2 d hu
        refine ⟨t1, ?_, a1, a2, ?_⟩
        · rw [e2]
        · left; omega
      · rw [rebalance_of_balanced _ _ _ _ _ (by omega) (by omega)]
        refine ⟨_, rfl, ?_, ?_, ?_⟩
        · simp only [heightInv, heightOrZero_mk]
          refine ⟨?_, hl1, ht.2.2⟩
          split_ifs <;> omega
        · simp only [balanced]
          exact ⟨⟨by omega, by omega⟩, bl1, bt.2.2⟩
        · simp only [heightOrZero_mk, unequal]
          split_ifs <;> omega
    · obtain ⟨r1, e1, hr1, br1, g1⟩ := ihr ht.2.2 bt.2.2
      simp only [add, if_neg c, e1, Option.map, Option.some_bind, heightOrZero_mk]
      have nr1 := heightOrZero_nonneg hr1
      by_cases d : heightOrZero r1 = heightOrZero l + 2
      · have hu : unequal r1 := by
          rcases g1 with g | ⟨g, g2 | g2⟩
          · omega
          · subst g2; simp only [heightOrZero_null] at *; omega
          · exact g2
        obtain ⟨t1, e2, a1, a2, a3⟩ :=
          rebalance_right_heavy k v (if h - max (heightOrZero l) (heightOrZero r1) ≤ 0 then h + 1 else h)
            l r1 ht.2.1 bt.2.1 hr1 br1 d hu
        refine ⟨t1, ?_, a1, a2, ?_⟩
        · rw [e2]
        · left; omega
      · rw [rebalance_of_balanced _ _ _ _ _ (by omega) (by omega)]
        refine ⟨_, rfl, ?_, ?_, ?_⟩
        · simp only [heightInv, heightOrZero_mk]
          refine ⟨?_, ht.2.1, hr1⟩
          split_ifs <;> omega
        · simp only [balanced]
          exact ⟨⟨by omega, by omega⟩, bt.2.1, br1⟩
        · simp only [heightOrZero_mk, unequal]
          split_ifs <;> omega

theorem add_toList (t : Node K V) (a_key : K) (a_val : V) (s : Int) (t1 : Node K V) (s1 : Int)
    (h : add t a_key a_val s = some (t1, s1)) :
    s1 = s + 1 ∧ (toList t1).Perm ((a_key, a_val) :: toList t) ∧
      ((keysOf t).Pairwise (· ≤ ·) → (keysOf t1).Pairwise (· ≤ ·)) := by
  induction t generalizing t1 s1 with
  | null =>
    simp [add, rebalance] at h
    obtain ⟨rfl, rfl⟩ := h
    simp [toList, keysOf]
  | mk k v h0 l r ihl ihr =>
    by_cases c : a_key < k
    · simp only [add, if_pos c] at h
      cases e : add l a_key a_val s with
      | none => simp [e] at h
      | some p =>
        obtain ⟨l1, sl⟩ := p
        simp only [e, Option.map, Option.some_bind] at h
        obtain ⟨i1, i2, i3⟩ := ihl l1 sl e
        split at h
        · rename_i t2 e2
          simp only [Option.some.injEq, Prod.mk.injEq] at h
          obtain ⟨rfl, rfl⟩ := h
          have e3 := rebalance_toList e2
          simp only [toList] at e3
          refine ⟨i1, ?_, ?_⟩
          · rw [e3]
            simp only [toList]
            exact (i2.append_right _).trans (by simp)
          · intro hs
            simp only [keysOf, e3, toList, List.map_append, List.map_cons] at hs ⊢
            rw [List.pairwise_append] at hs ⊢
            refine ⟨i3 hs.1, hs.2.1, ?_⟩
            intro a ha b hb
            have ha2 : a ∈ (toList l1).map Prod.fst := ha
            rw [List.mem_map] at ha2
            obtain ⟨x, hx, rfl⟩ := ha2
            have hx2 := i2.mem_iff.mp hx
            rcases List.mem_cons.mp hx2 with rfl | hx3
            · rcases List.mem_cons.mp hb with rfl | hb2
              · exact le_of_lt c
              · have := (List.pairwise_cons.mp hs.2.1).1 b hb2
                exact le_trans (le_of_lt c) this
            · exact hs.2.2 _ (List.mem_map_of_mem _ hx3) b hb
        · simp at h
    · simp only [add, if_neg c] at h
      cases e : add r a_key a_val s with
      | none => simp [e] at h
      | some p =>
        obtain ⟨r1, sr⟩ := p
        simp only [e, Option.map, Option.some_bind] at h
        obtain ⟨i1, i2, i3⟩ := ihr r1 sr e
        split at h
        · rename_i t2 e2
          simp only [Option.some.injEq, Prod.mk.injEq] at h
          obtain ⟨rfl, rfl⟩ := h
          have e3 := rebalance_toList e2
          simp only [toList] at e3
          refine ⟨i1, ?_, ?_⟩
          · rw [e3]
            simp only [toList]
            refine ((i2.cons (k, v)).append_left (toList l)).trans ?_
            have e4 : toList l ++ (k, v) :: (a_key, a_val) :: toList r
                = (toList l ++ [(k, v)]) ++ (a_key, a_val) :: toList r := by simp
            rw [e4]
            refine List.perm_middle.trans ?_
            simp
          · intro hs
            simp only [keysOf, e3, toList, List.map_append, List.map_cons] at hs ⊢
            rw [List.pairwise_append] at hs ⊢
            have hs2 := List.pairwise_cons.mp hs.2.1
            have key : ∀ b ∈ (toList r1).map Prod.fst, k ≤ b ∧ ∀ a ∈ (toList l).map Prod.fst, a ≤ b := by
              intro b hb
              rw [List.mem_map] at hb
              obtain ⟨x, hx, rfl⟩ := hb
              have hx2 := i2.mem_iff.mp hx
              rcases List.mem_cons.mp hx2 with rfl | hx3
              · refine ⟨not_lt.mp c, fun a ha => ?_⟩
                exact le_trans (hs.2.2 a ha k (List.mem_cons_self _ _)) (not_lt.mp c)
              · have hm : x.1 ∈ (toList r).map Prod.fst := List.mem_map_of_mem _ hx3
                exact ⟨hs2.1 _ hm, fun a ha => hs.2.2 a ha _ (List.mem_cons_of_mem _ hm)⟩
            refine ⟨hs.1, List.pairwise_cons.mpr ⟨fun b hb => (key b hb).1, i3 hs2.2⟩, ?_⟩
            intro a ha b hb
            rcases List.mem_cons.mp hb with rfl | hb2
            · exact hs.2.2 a ha _ (List.mem_cons_self _ _)
            · exact (key b hb2).2 a ha
        · simp at h

theorem remove_toList (root : Node K V) (key : K) (t : Node K V) (s : Int)
    (t1 : Node K V) (s1 : Int) (h : remove root key t s = some (t1, s1)) :
    (find root key = none ∧ t1 = t ∧ s1 = s) ∨
      (s1 = s - 1 ∧ ∃ v pre post, toList t = pre ++ (key, v) :: post ∧
        toList t1 = pre ++ post) := by
  induction t generalizing t1 s1 with
  | null => simp [remove] at h
  | mk k v h0 l r ihl ihr =>
    simp only [remove] at h
    cases ef : find root key with
    | none =>
      simp only [ef, Option.some.injEq, Prod.mk.injEq] at h
      exact Or.inl ⟨rfl, h.1.symm, h.2.symm⟩
    | some w =>
      right
      simp only [ef] at h
      split_ifs at h with c1 c2 c3
      · cases e : remove root key l s with
        | none => simp [e] at h
        | some p =>
          obtain ⟨l1, sl⟩ := p
          simp only [e, Option.some_bind] at h
          cases e2 : rebalance (mk k v (patchHeight h0 l1 r) l1 r) with
          | none => simp [e2] at h
          | some t2 =>
            simp only [e2, Option.some_bind] at h
            cases e3 : rebalance t2 with
            | none => simp [e3] at h
            | some t3 =>
              simp only [e3, Option.map, Option.some.injEq, Prod.mk.injEq] at h
              obtain ⟨rfl, rfl⟩ := h
              rcases ihl l1 sl e with ⟨hn, _⟩ | ⟨hs, v1, pre, post, q1, q2⟩
              · rw [ef] at hn; cases hn
              · refine ⟨hs, v1, pre, post ++ (k, v) :: toList r, ?_, ?_⟩
                · simp [toList, q1]
                · rw [rebalance_toList e3, rebalance_toList e2]
                  simp [toList, q2]
      · cases e : remove root key r s with
        | none => simp [e] at h
        | some p =>
          obtain ⟨r1, sr⟩ := p
          simp only [e, Option.some_bind] at h
          cases e2 : rebalance (mk k v (patchHeight h0 r1 l) l r1) with
          | none => simp [e2] at h
          | some t2 =>
            simp only [e2, Option.some_bind] at h
            cases e3 : rebalance t2 with
            | none => simp [e3] at h
            | some t3 =>
              simp only [e3, Option.map, Option.some.injEq, Prod.mk.injEq] at h
              obtain ⟨rfl, rfl⟩ := h
              rcases ihr r1 sr e with ⟨hn, _⟩ | ⟨hs, v1, pre, post, q1, q2⟩
              · rw [ef] at hn; cases hn
              · refine ⟨hs, v1, toList l ++ (k, v) :: pre, post, ?_, ?_⟩
                · simp [toList, q1]
                · rw [rebalance_toList e3, rebalance_toList e2]
                  simp [toList, q2]
      · subst c3
        cases e : unlink h0 l r with
        | none => simp [e] at h
        | some s2 =>
          simp only [e, Option.some_bind] at h
          cases e3 : rebalance s2 with
          | none => simp [e3] at h
          | some t3 =>
            simp only [e3, Option.map, Option.some.injEq, Prod.mk.injEq] at h
            obtain ⟨rfl, rfl⟩ := h
            refine ⟨rfl, v, toList l, toList r, by simp [toList], ?_⟩
            rw [rebalance_toList e3, unlink_toList _ _ _ _ e]
      · exact absurd (lt_trichotomy key k) (by tauto)

theorem find_mem (t : Node K V) (key : K) (w : V) (h : find t key = some w) :
    key ∈ keysOf t := by
  induction t with
  | null => simp [find] at h
  | mk k v h0 l r ihl ihr =>
    simp only [find] at h
    simp only [keysOf, toList, List.map_append, List.map_cons, List.mem_append, List.mem_cons]
    split_ifs at h with c1 c2 c3
    · exact Or.inr (Or.inl c1)
    · exact Or.inl (ihl h)
    · exact Or.inr (Or.inr (ihr h))

theorem searchTreeWeak_of_sorted (t : Node K V) (hs : (keysOf t).Pairwise (· ≤ ·)) :
    searchTreeWeak t := by
  induction t with
  | null => trivial
  | mk k v h l r ihl ihr =>
    rw [keysOf_mk, List.pairwise_append] at hs
    have hr := List.pairwise_cons.mp hs.2.1
    exact ⟨fun x hx => hs.2.2 x hx k (List.mem_cons_self _ _), hr.1, ihl hs.1, ihr hr.2⟩

theorem searchTree_of_sorted_lt (t : Node K V) (hs : (keysOf t).Pairwise (· < ·)) :
    searchTree t := by
  induction t with
  | null => trivial
  | mk k v h l r ihl ihr =>
    rw [keysOf_mk, List.pairwise_append] at hs
    have hr := List.pairwise_cons.mp hs.2.1
    exact ⟨fun x hx => hs.2.2 x hx k (List.mem_cons_self _ _),
      fun x hx => le_of_lt (hr.1 x hx), ihl hs.1, ihr hr.2⟩

theorem find_loop_eq (t : Node K V) (key : K) (w : V) :
    find_loop t key w = match find t key with
      | some v => (true, v)
      | none => (false, w) := by
  induction t with
  | null => rfl
  | mk k v h l r ihl ihr =>
    simp only [find_loop, find]
    split_ifs <;> simp_all

theorem find_mem_pair (t : Node K V) (key : K) (w : V) (h : find t key = some w) :
    (key, w) ∈ toList t := by
  induction t with
  | null => simp [find] at h
  | mk k v h0 l r ihl ihr =>
    simp only [find] at h
    simp only [toList, List.mem_append, List.mem_cons]
    split_ifs at h with c1 c2 c3
    · simp only [Option.some.injEq] at h
      subst h; subst c1
      exact Or.inr (Or.inl rfl)
    · exact Or.inl (ihl h)
    · exact Or.inr (Or.inr (ihr h))

theorem find_of_mem (t : Node K V) (key : K) (hs : (keysOf t).Pairwise (· ≤ ·))
    (hm : key ∈ keysOf t) : ∃ w, find t key = some w := by
  induction t with
  | null => simp [keysOf, toList] at hm
  | mk k v h l r ihl ihr =>
    rw [keysOf_mk, List.pairwise_append] at hs
    have hr := List.pairwise_cons.mp hs.2.1
    rw [keysOf_mk, List.mem_append, List.mem_cons] at hm
    simp only [find]
    by_cases c1 : key = k
    · exact ⟨v, by rw [if_pos c1]⟩
    · rw [if_neg c1]
      by_cases c2 : key < k
      · rw [if_pos c2]
        rcases hm with hm | hm | hm
        · exact ihl hs.1 hm
        · exact absurd hm c1
        · exact absurd (hr.1 key hm) (not_le.mpr c2)
      · rw [if_neg c2]
        have c3 : key > k := lt_of_le_of_ne (not_lt.mp c2) (Ne.symm c1)
        rw [if_pos c3]
        rcases hm with hm | hm | hm
        · exact absurd (hs.2.2 key hm k (List.mem_cons_self _ _)) (not_le.mpr c3)
        · exact absurd hm c1
        · exact ihr hr.2 hm

theorem find_after_add (t t1 : Node K V) (key : K) (v : V) (s s1 : Int)
    (hs : (keysOf t).Pairwise (· ≤ ·)) (hn : key ∉ keysOf t)
    (h : add t key v s = some (t1, s1)) : find t1 key = some v := by
  obtain ⟨_, hp, hsort⟩ := add_toList t key v s t1 s1 h
  have hm : key ∈ keysOf t1 := by
    have : (key, v) ∈ toList t1 := hp.mem_iff.mpr (List.mem_cons_self _ _)
    exact List.mem_map_of_mem Prod.fst this
  obtain ⟨w, hw⟩ := find_of_mem t1 key (hsort hs) hm
  have hw2 := hp.mem_iff.mp (find_mem_pair t1 key w hw)
  rcases List.mem_cons.mp hw2 with e | e
  · simp only [Prod.mk.injEq] at e
    rw [hw, e.2]
  · exact absurd (List.mem_map_of_mem Prod.fst e) hn


theorem range_search_inside (k : K) (v : V) (h : Int) (l r : Node K V) (k1 k2 : K)
    (vals : List V) (c : k1 ≤ k ∧ k2 ≥ k) :
    range_search (mk k v h l r) k1 k2 vals
      = (range_search r k1 k2 (vals ++ [v])).bind fun vals2 => range_search l k1 k2 vals2 := by
  have c1 : ¬ k1 > k := not_lt.mpr c.1
  have c2 : ¬ k2 < k := not_lt.mpr c.2
  rcases l with _ | ⟨lk, lv, lh, ll, lr⟩ <;>
    rcases r with _ | ⟨rk, rv, rh, (_ | ⟨ek, ev, eh, el, er⟩), rr⟩ <;>
    (show (if k1 ≤ k ∧ k2 ≥ k then (if k1 > k then _ else if k2 < k then _ else _) else _) = _
     rw [if_pos c, if_neg c1, if_neg c2])

theorem range_search_outside (k : K) (v : V) (h : Int) (l r : Node K V) (k1 k2 : K)
    (vals : List V) (c : ¬ (k1 ≤ k ∧ k2 ≥ k)) :
    range_search (mk k v h l r) k1 k2 vals
      = (range_search r k1 k2 vals).bind fun vals2 => range_search l k1 k2 vals2 := by
  rcases l with _ | ⟨lk, lv, lh, ll, lr⟩ <;>
    rcases r with _ | ⟨rk, rv, rh, (_ | ⟨ek, ev, eh, el, er⟩), rr⟩ <;>
    (show (if k1 ≤ k ∧ k2 ≥ k then _ else _) = _
     rw [if_neg c])

theorem range_search_spec (t : Node K V) (k1 k2 : K) (vals : List V) :
    ∃ ws, range_search t k1 k2 vals = some (vals ++ ws) ∧
      ws.Perm (((toList t).filter fun p => decide (k1 ≤ p.1 ∧ p.1 ≤ k2)).map Prod.snd) := by
  induction t generalizing vals with
  | null =>
    refine ⟨[], ?_, ?_⟩
    · rw [List.append_nil]; rfl
    · simp [toList]
  | mk k v h l r ihl ihr =>
    by_cases c : k1 ≤ k ∧ k2 ≥ k
    · rw [range_search_inside k v h l r k1 k2 vals c]
      obtain ⟨wr, er, pr⟩ := ihr (vals ++ [v])
      obtain ⟨wl, el, pl⟩ := ihl (vals ++ [v] ++ wr)
      refine ⟨v :: (wr ++ wl), ?_, ?_⟩
      · rw [er, Option.some_bind, el]
        simp
      · have hc : decide (k1 ≤ k ∧ k ≤ k2) = true := decide_eq_true ⟨c.1, c.2⟩
        simp only [toList, List.filter_append, List.filter_cons, hc, if_true, List.map_append,
          List.map_cons]
        exact ((List.perm_append_comm.trans (pl.append pr)).cons v).trans List.perm_middle.symm
    · rw [range_search_outside k v h l r k1 k2 vals c]
      obtain ⟨wr, er, pr⟩ := ihr vals
      obtain ⟨wl, el, pl⟩ := ihl (vals ++ wr)
      refine ⟨wr ++ wl, ?_, ?_⟩
      · rw [er, Option.some_bind, el]
        simp
      · have hc : decide (k1 ≤ k ∧ k ≤ k2) = false := decide_eq_false c
        simp only [toList, List.filter_append, List.filter_cons, hc, List.map_append]
        exact List.perm_append_comm.trans (pl.append pr)

theorem orFault_toOption {α : Type} (f : Fault) (o : Option α) :
    (orFault f o).toOption = o := by
  cases o <;> rfl

theorem bind_toOption {α β : Type} (x : Except Fault α) (g : α → Except Fault β) :
    (x.bind g).toOption = x.toOption.bind fun a => (g a).toOption := by
  cases x <;> rfl

theorem map_toOption {α β : Type} (x : Except Fault α) (g : α → β) :
    (x.map g).toOption = x.toOption.map g := by
  cases x <;> rfl

theorem remove_traced_toOption (root : Node K V) (key : K) (t : Node K V) (s : Int) :
    (remove_traced root key t s).toOption = remove root key t s := by
  induction t generalizing s with
  | null => rfl
  | mk k v h l r ihl ihr =>
    simp only [remove_traced, remove]
    cases find root key with
    | none => rfl
    | some w =>
      simp only
      split_ifs
      · simp only [bind_toOption, map_toOption, orFault_toOption, ihl]
      · simp only [bind_toOption, map_toOption, orFault_toOption, ihr]
      · simp only [bind_toOption, map_toOption, orFault_toOption]
      · simp only [map_toOption, orFault_toOption]

theorem remove_traced_no_entry_fault (root : Node K V) (key : K) (t : Node K V) (s : Int)
    (w : V) (hf : find t key = some w) :
    (∃ p, remove_traced root key t s = Except.ok p) ∨
      remove_traced root key t s = Except.error Fault.rebalancing := by
  induction t generalizing s with
  | null => simp [find] at hf
  | mk k v h l r ihl ihr =>
    simp only [remove_traced]
    cases find root key with
    | none => exact Or.inl ⟨_, rfl⟩
    | some w0 =>
      simp only [find] at hf
      simp only
      have tail : ∀ (x : Node K V) (n : Int),
          (∃ p, ((orFault Fault.rebalancing (rebalance x)).map fun s1 => (s1, n))
              = Except.ok p) ∨
            ((orFault Fault.rebalancing (rebalance x)).map fun s1 => (s1, n))
              = Except.error Fault.rebalancing := by
        intro x n
        cases rebalance x with
        | none => exact Or.inr rfl
        | some y => exact Or.inl ⟨_, rfl⟩
      by_cases c0 : key = k
      · have c1 : ¬ key < k := by rw [c0]; exact lt_irrefl k
        have c2 : ¬ key > k := by rw [c0]; exact lt_irrefl k
        rw [if_neg c1, if_neg c2, if_pos c0]
        obtain ⟨x, ex⟩ := unlink_total h l r
        rw [ex]
        exact tail x (s - 1)
      · rw [if_neg c0] at hf
        by_cases c1 : key < k
        · rw [if_pos c1] at hf ⊢
          rcases ihl s hf with ⟨p, e⟩ | e
          · rw [e]
            show (∃ q, (Except.bind _ _) = Except.ok q) ∨ _
            cases e2 : rebalance (mk k v (patchHeight h p.1 r) p.1 r) with
            | none => exact Or.inr (by simp [Except.bind, e2, orFault])
            | some y =>
              simp only [Except.bind, e2, orFault]
              exact tail y p.2
          · rw [e]
            exact Or.inr rfl
        · rw [if_neg c1] at hf ⊢
          have c2 : key > k := lt_of_le_of_ne (not_lt.mp c1) (Ne.symm c0)
          rw [if_pos c2] at hf ⊢
          rcases ihr s hf with ⟨p, e⟩ | e
          · rw [e]
            cases e2 : rebalance (mk k v (patchHeight h p.1 l) l p.1) with
            | none => exact Or.inr (by simp [Except.bind, e2, orFault])
            | some y =>
              simp only [Except.bind, e2, orFault]
              exact tail y p.2
          · rw [e]
            exact Or.inr rfl

theorem remove_avl (root : Node K V) (key : K) (t : Node K V) (s : Int) (w0 w : V)
    (hroot : find root key = some w0) (hf : find t key = some w)
    (ht : heightInv t) (bt : balanced t) :
    ∃ t1, remove root key t s = some (t1, s - 1) ∧
      0 ≤ heightOrZero t1 ∧ heightOrZero t1 ≤ heightOrZero t := by
  induction t generalizing s w with
  | null => simp [find] at hf
  | mk k v h l r ihl ihr =>
    simp only [heightInv] at ht
    simp only [balanced] at bt
    have nl := heightOrZero_nonneg ht.2.1
    have nr := heightOrZero_nonneg ht.2.2
    simp only [find] at hf
    simp only [remove, hroot, heightOrZero_mk]
    by_cases c0 : key = k
    · have c1 : ¬ key < k := by rw [c0]; exact lt_irrefl k
      have c2 : ¬ key > k := by rw [c0]; exact lt_irrefl k
      rw [if_neg c1, if_neg c2, if_pos c0]
      rcases l with _ | ⟨lk, lv, lh, ll, lr⟩ <;> rcases r with _ | ⟨rk, rv, rh, rl, rr⟩
      · refine ⟨null, ?_, ?_, ?_⟩
        · simp [unlink, rebalance]
        · simp
        · simp only [heightOrZero_null] at ht ⊢
          omega
      · have e : unlink h (null : Node K V) (mk rk rv rh rl rr) = some (mk rk rv rh rl rr) := rfl
        have br := bt.2.2
        simp only [balanced] at br
        rw [e, Option.some_bind, rebalance_of_balanced _ _ _ _ _ br.1.1 br.1.2]
        refine ⟨_, rfl, ?_, ?_⟩
        · simp only [heightOrZero_mk] at nr ⊢
          exact nr
        · simp only [heightOrZero_mk, heightOrZero_null] at ht ⊢
          omega
      · have e : unlink h (mk lk lv lh ll lr) (null : Node K V) = some (mk lk lv lh ll lr) := rfl
        have bl := bt.2.1
        simp only [balanced] at bl
        rw [e, Option.some_bind, rebalance_of_balanced _ _ _ _ _ bl.1.1 bl.1.2]
        refine ⟨_, rfl, ?_, ?_⟩
        · simp only [heightOrZero_mk] at nl ⊢
          exact nl
        · simp only [heightOrZero_mk, heightOrZero_null] at ht ⊢
          omega
      · obtain ⟨sk, sv, r1, e, hr1⟩ := unlink_two h lk lv lh ll lr rk rv rh rl rr
        rw [e, Option.some_bind]
        have hrr := ht.2.2
        simp only [heightInv] at hrr
        have nrr := heightOrZero_nonneg hrr.2.2
        have nrl := heightOrZero_nonneg hrr.2.1
        simp only [heightOrZero_mk] at nl nr ht bt
        have b1 : 0 ≤ heightOrZero r1 ∧ heightOrZero r1 ≤ rh := by
          rcases hr1 with g | g | g
          · rw [g]; omega
          · omega
          · omega
        by_cases hd : heightOrZero (mk lk lv lh ll lr) - heightOrZero r1 > 1
        · obtain ⟨s2, e2, _, g1, g2⟩ :=
            rebalance_left_heavy_settles sk sv h (mk lk lv lh ll lr) r1 ht.2.1 bt.2.1 b1.1 hd
          rw [e2]
          refine ⟨s2, rfl, by omega, ?_⟩
          simp only [heightOrZero_mk] at g2
          omega
        · simp only [heightOrZero_mk] at hd
          rw [rebalance_of_balanced _ _ _ _ _ (by simp only [heightOrZero_mk]; omega)
            (by simp only [heightOrZero_mk]; omega)]
          refine ⟨_, rfl, ?_, ?_⟩
          · simp only [heightOrZero_mk]; omega
          · simp only [heightOrZero_mk]; omega
    · rw [if_neg c0] at hf
      by_cases c1 : key < k
      · rw [if_pos c1] at hf ⊢
        obtain ⟨l1, e, g0, g1⟩ := ihl s w hf ht.2.1 bt.2.1
        rw [e, Option.some_bind]
        have pb := patchHeight_bounds h l1 r
        by_cases hd : heightOrZero r - heightOrZero l1 > 1
        · obtain ⟨s2, e2, e3, q1, q2⟩ :=
            rebalance_right_heavy_settles k v (patchHeight h l1 r) l1 r ht.2.2 bt.2.2 g0 hd
          simp only [e2, Option.some_bind, e3, Option.map]
          exact ⟨s2, rfl, by omega, by omega⟩
        · have eb := rebalance_of_balanced k v (patchHeight h l1 r) l1 r (by omega) (by omega)
          simp only [eb, Option.some_bind, Option.map]
          refine ⟨_, rfl, ?_, ?_⟩
          · simp only [heightOrZero_mk]; omega
          · simp only [heightOrZero_mk]; omega
      · rw [if_neg c1] at hf ⊢
        have c2 : key > k := lt_of_le_of_ne (not_lt.mp c1) (Ne.symm c0)
        rw [if_pos c2] at hf ⊢
        obtain ⟨r1, e, g0, g1⟩ := ihr s w hf ht.2.2 bt.2.2
        rw [e, Option.some_bind]
        have pb := patchHeight_bounds h r1 l
        by_cases hd : heightOrZero l - heightOrZero r1 > 1
        · obtain ⟨s2, e2, e3, q1, q2⟩ :=
            rebalance_left_heavy_settles k v (patchHeight h r1 l) l r1 ht.2.1 bt.2.1 g0 hd
          simp only [e2, Option.some_bind, e3, Option.map]
          exact ⟨s2, rfl, by omega, by omega⟩
        · have eb := rebalance_of_balanced k v (patchHeight h r1 l) l r1 (by omega) (by omega)
          simp only [eb, Option.some_bind, Option.map]
          refine ⟨_, rfl, ?_, ?_⟩
          · simp only [heightOrZero_mk]; omega
          · simp only [heightOrZero_mk]; omega

end Node

open Node

variable {K V : Type} [LinearOrder K]

theorem consistent_empty : Consistent (empty : AVLCollection K V) := by
  simp [Consistent, empty, count, keysOf, toList]

theorem add_consistent (c c1 : AVLCollection K V) (k : K) (v : V) (hc : Consistent c)
    (h : c.add k v = some c1) : Consistent c1 := by
  simp only [add] at h
  cases e : Node.add c.root k v c.tree_size with
  | none => simp [e] at h
  | some p =>
    obtain ⟨t1, s1⟩ := p
    simp only [e, Option.map, Option.some.injEq] at h
    subst h
    obtain ⟨i1, i2, i3⟩ := add_toList _ _ _ _ _ _ e
    refine ⟨?_, i3 hc.2⟩
    have hl := i2.length_eq
    simp only [List.length_cons] at hl
    simp only [count_eq_length, hl, i1, hc.1]
    push_cast
    rfl

theorem remove_consistent (c c1 : AVLCollection K V) (k : K) (hc : Consistent c)
    (h : c.remove k = some c1) : Consistent c1 := by
  simp only [remove] at h
  cases e : Node.remove c.root k c.root c.tree_size with
  | none => simp [e] at h
  | some p =>
    obtain ⟨t1, s1⟩ := p
    simp only [e, Option.map, Option.some.injEq] at h
    subst h
    rcases remove_toList _ _ _ _ _ _ e with ⟨_, h2, h3⟩ | ⟨h1, w, pre, post, q1, q2⟩
    · subst h2
      subst h3
      exact hc
    · refine ⟨?_, ?_⟩
      · simp only [count_eq_length, q2, h1, hc.1, q1, List.length_append, List.length_cons]
        push_cast
        ring
      · have hs := hc.2
        simp only [keysOf, q1, q2, List.map_append, List.map_cons] at hs ⊢
        exact hs.sublist (List.Sublist.append_left (List.sublist_cons_self _ _) _)

theorem calls_consistent (l : List (Call K V)) (c c1 : AVLCollection K V) (hc : Consistent c)
    (h : calls c l = some c1) : Consistent c1 := by
  induction l generalizing c with
  | nil =>
    simp only [calls, Option.some.injEq] at h
    subst h; exact hc
  | cons x xs ih =>
    simp only [calls] at h
    cases e : call c x with
    | none => simp [e] at h
    | some c2 =>
      simp only [e, Option.some_bind] at h
      refine ih c2 ?_ h
      cases x with
      | add k v => exact add_consistent c c2 k v hc e
      | remove k => exact remove_consistent c c2 k hc e

theorem reachable_consistent (c : AVLCollection K V) (h : Reachable c) : Consistent c := by
  obtain ⟨l, hl⟩ := h
  exact calls_consistent l empty c consistent_empty hl

theorem add_keeps_avl (c : AVLCollection K V) (k : K) (v : V)
    (hh : heightInv c.root) (hb : balanced c.root) :
    ∃ c1, c.add k v = some c1 ∧ heightInv c1.root ∧ balanced c1.root := by
  obtain ⟨t1, e, a1, a2, _⟩ := add_avl c.root k v c.tree_size hh hb
  exact ⟨⟨c.tree_size + 1, t1⟩, by simp [add, e], a1, a2⟩

theorem addAll_keeps_avl (l : List (K × V)) (c : AVLCollection K V)
    (hh : heightInv c.root) (hb : balanced c.root) :
    ∃ c1, addAll c l = some c1 ∧ heightInv c1.root ∧ balanced c1.root := by
  induction l generalizing c with
  | nil => exact ⟨c, rfl, hh, hb⟩
  | cons x xs ih =>
    obtain ⟨c1, e, a1, a2⟩ := add_keeps_avl c x.1 x.2 hh hb
    obtain ⟨c2, e2, b1, b2⟩ := ih c1 a1 a2
    exact ⟨c2, by simp [addAll, e, e2], b1, b2⟩

theorem add_spec (c c1 : AVLCollection K V) (k : K) (v : V) (h : c.add k v = some c1) :
    c1.tree_size = c.tree_size + 1 ∧ (toList c1.root).Perm ((k, v) :: toList c.root) ∧
      ((keysOf c.root).Pairwise (· ≤ ·) → (keysOf c1.root).Pairwise (· ≤ ·)) := by
  simp only [add] at h
  cases e : Node.add c.root k v c.tree_size with
  | none => simp [e] at h
  | some p =>
    obtain ⟨t1, s1⟩ := p
    simp only [e, Option.map, Option.some.injEq] at h
    subst h
    exact add_toList _ _ _ _ _ _ e

theorem preorder_copy_spec (src : Node K V) (c : AVLCollection K V)
    (hh : heightInv c.root) (hb : balanced c.root) :
    ∃ c1, preorder_copy src c = some c1 ∧ heightInv c1.root ∧ balanced c1.root ∧
      (toList c1.root).Perm (toList src ++ toList c.root) ∧
      c1.tree_size = c.tree_size + (count src : Int) ∧
      ((keysOf c.root).Pairwise (· ≤ ·) → (keysOf c1.root).Pairwise (· ≤ ·)) := by
  induction src generalizing c with
  | null => exact ⟨c, rfl, hh, hb, by simp [toList], by simp [count], id⟩
  | mk k v h l r ihl ihr =>
    obtain ⟨c1, e1, a1, a2⟩ := add_keeps_avl c k v hh hb
    obtain ⟨s1, p1, o1⟩ := add_spec c c1 k v e1
    obtain ⟨c2, e2, b1, b2, p2, s2, o2⟩ := ihl c1 a1 a2
    obtain ⟨c3, e3, d1, d2, p3, s3, o3⟩ := ihr c2 b1 b2
    refine ⟨c3, ?_, d1, d2, ?_, ?_, fun hs => o3 (o2 (o1 hs))⟩
    · simp [preorder_copy, e1, e2, e3]
    · refine p3.trans ?_
      refine (List.Perm.append_left _ (p2.trans (List.Perm.append_left _ p1))).trans ?_
      simp only [toList]
      refine List.perm_append_comm.trans ?_
      simp only [List.append_assoc, List.cons_append]
      exact (List.perm_append_comm.cons _).append_left _
    · simp only [count, s3, s2, s1]
      push_cast
      ring

/-- C1. Balance invariant over every tree reachable by `add` and `remove`: the code
breaks it.  After seven insertions, `remove(2)` takes the two-children branch,
unlinks the successor 3 from under node 4 and never rebalances node 4, which is
left with no left child and a right child of stored height 2 (and depth 2). -/
theorem balance_broken_by_remove :
    calls (empty : AVLCollection Nat Nat)
        [Call.add 0 0, Call.add 1 1, Call.add 2 2, Call.add 4 4, Call.add 5 5, Call.add 3 3,
          Call.add 6 6, Call.remove 2]
      = some ⟨6, Node.mk 3 3 4 (Node.mk 1 1 2 (Node.mk 0 0 1 null null) null)
          (Node.mk 4 4 3 null (Node.mk 5 5 2 null (Node.mk 6 6 1 null null)))⟩ ∧
    ¬ balanced (Node.mk 3 3 4 (Node.mk 1 1 2 (Node.mk 0 0 1 null null) null)
          (Node.mk 4 4 3 null (Node.mk 5 5 2 null (Node.mk 6 6 1 null null))) : Node Nat Nat) ∧
    ¬ depthBalanced (Node.mk 3 3 4 (Node.mk 1 1 2 (Node.mk 0 0 1 null null) null)
          (Node.mk 4 4 3 null (Node.mk 5 5 2 null (Node.mk 6 6 1 null null))) : Node Nat Nat) := by
  decide

/-- C2. Height correctness over every tree reachable by `add` and `remove`: the code
breaks it.  After four insertions, `remove(1)` takes the two-children branch and
gives the successor the old stored height 3, although both its children are
leaves: the height invariant fails at the root and `height()` reports 3 for a tree
whose longest root-to-leaf path has 2 nodes. -/
theorem height_broken_by_remove :
    calls (empty : AVLCollection Nat Nat)
        [Call.add 0 0, Call.add 1 1, Call.add 2 2, Call.add 3 3, Call.remove 1]
      = some ⟨3, Node.mk 2 2 3 (Node.mk 0 0 1 null null) (Node.mk 3 3 1 null null)⟩ ∧
    ¬ heightInv (Node.mk 2 2 3 (Node.mk 0 0 1 null null) (Node.mk 3 3 1 null null) : Node Nat Nat) ∧
    height (⟨3, Node.mk 2 2 3 (Node.mk 0 0 1 null null) (Node.mk 3 3 1 null null)⟩ :
        AVLCollection Nat Nat) = 3 ∧
    depth (Node.mk 2 2 3 (Node.mk 0 0 1 null null) (Node.mk 3 3 1 null null) : Node Nat Nat) = 2 := by
  decide

/-- C3. Insertion preserves the AVL invariants: on a tree that satisfies the height
invariant and the balance invariant at every node, `add(k, v)` returns and the new
tree satisfies both again; hence every tree built from the empty tree by `add`
calls alone exists and satisfies both. -/
theorem add_preserves_invariants (c : AVLCollection K V) (k : K) (v : V)
    (hh : heightInv c.root) (hb : balanced c.root) :
    (∃ c1, c.add k v = some c1 ∧ heightInv c1.root ∧ balanced c1.root) ∧
      ∀ l : List (K × V), ∃ c2, addAll (empty : AVLCollection K V) l = some c2 ∧
        heightInv c2.root ∧ balanced c2.root :=
  ⟨add_keeps_avl c k v hh hb, fun l => addAll_keeps_avl l empty trivial trivial⟩

theorem add_preserves_invariants_witness :
    heightInv (Node.mk 2 20 2 (Node.mk 1 10 1 null null) null : Node Nat Nat) ∧
    balanced (Node.mk 2 20 2 (Node.mk 1 10 1 null null) null : Node Nat Nat) ∧
    ((∃ c1, add (⟨2, Node.mk 2 20 2 (Node.mk 1 10 1 null null) null⟩ : AVLCollection Nat Nat) 0 5
          = some c1 ∧ heightInv c1.root ∧ balanced c1.root) ∧
      ∀ l : List (Nat × Nat), ∃ c2, addAll (empty : AVLCollection Nat Nat) l = some c2 ∧
        heightInv c2.root ∧ balanced c2.root) :=
  ⟨by decide, by decide,
    add_preserves_invariants ⟨2, Node.mk 2 20 2 (Node.mk 1 10 1 null null) null⟩ 0 5
      (by decide) (by decide)⟩

/-- C4. Size correctness: in every collection reachable from the empty one by `add`
and `remove` calls, `size()` is the number of nodes of the tree, which is the
number of keys that `keys()` produces. -/
theorem size_correct (c : AVLCollection K V) (h : Reachable c) :
    c.size = (count c.root : Int) ∧ c.size = ((c.keys []).length : Int) := by
  have hc := reachable_consistent c h
  refine ⟨hc.1, ?_⟩
  simp only [size, keys, inorder_eq, List.nil_append, keysOf, List.length_map, hc.1,
    count_eq_length]

theorem size_correct_witness :
    Reachable (⟨2, Node.mk 1 10 2 null (Node.mk 2 20 1 null null)⟩ : AVLCollection Nat Nat) ∧
    (size (⟨2, Node.mk 1 10 2 null (Node.mk 2 20 1 null null)⟩ : AVLCollection Nat Nat)
        = (count (Node.mk 1 10 2 null (Node.mk 2 20 1 null null) : Node Nat Nat) : Int) ∧
      size (⟨2, Node.mk 1 10 2 null (Node.mk 2 20 1 null null)⟩ : AVLCollection Nat Nat)
        = ((keys (⟨2, Node.mk 1 10 2 null (Node.mk 2 20 1 null null)⟩ :
            AVLCollection Nat Nat) []).length : Int)) :=
  ⟨⟨[Call.add 1 10, Call.add 2 20], by decide⟩,
    size_correct ⟨2, Node.mk 1 10 2 null (Node.mk 2 20 1 null null)⟩
      ⟨[Call.add 1 10, Call.add 2 20], by decide⟩⟩

/-- C5. Effect of `add` on every reachable tree: the code breaks it.  Fourteen calls
that all return lead to a tree whose stored heights are 1 at the root and -1 at
its left child; there `add(6, 6)` does not return: after linking the new leaf as
right child, `rebalance` finds the node right-heavy and reads
`rptr -> right -> height` through the leaf's absent right child. -/
theorem add_fails_on_reachable_tree :
    calls (empty : AVLCollection Nat Nat)
        [Call.add 0 0, Call.add 1 1, Call.add 2 2, Call.add 3 3, Call.add 4 4, Call.remove 0,
          Call.remove 2, Call.add 5 5, Call.add 0 0, Call.add 2 2, Call.remove 4,
          Call.remove 0, Call.remove 3, Call.remove 1]
      = some ⟨2, Node.mk 5 5 1 (Node.mk 2 2 (-1) null null) null⟩ ∧
    add (⟨2, Node.mk 5 5 1 (Node.mk 2 2 (-1) null null) null⟩ : AVLCollection Nat Nat) 6 6
      = none := by
  decide

/-- C6. Effect of `remove` on a present key in every reachable tree: the code breaks
it.  Ten calls that all return lead to a tree in which `find(5)` succeeds and
`remove(5)` does not return: the two-children branch makes 6 the new root with
stored height 3, `rebalance` finds it left-heavy with `heightLL <= heightLR`
(0 and 0) and reads `lptr -> right -> height` through an absent child. -/
theorem remove_fails_on_reachable_tree :
    calls (empty : AVLCollection Nat Nat)
        [Call.add 0 0, Call.add 1 1, Call.add 2 2, Call.add 3 3, Call.add 5 5, Call.remove 0,
          Call.remove 2, Call.add 6 6, Call.add 4 4, Call.remove 3]
      = some ⟨4, Node.mk 5 5 3 (Node.mk 4 4 2 (Node.mk 1 1 0 null null) null)
          (Node.mk 6 6 1 null null)⟩ ∧
    find (⟨4, Node.mk 5 5 3 (Node.mk 4 4 2 (Node.mk 1 1 0 null null) null)
          (Node.mk 6 6 1 null null)⟩ : AVLCollection Nat Nat) 5 = some 5 ∧
    remove (⟨4, Node.mk 5 5 3 (Node.mk 4 4 2 (Node.mk 1 1 0 null null) null)
          (Node.mk 6 6 1 null null)⟩ : AVLCollection Nat Nat) 5 = none := by
  decide

/-- C7. Removing an absent key is a no-op: on a non-empty tree in which `find(k)`
reports not-found, `remove(k)` returns the very same collection (same structure,
same stored heights, same `tree_size`), so `size()` and `height()` are unchanged,
`find(k)` still reports not-found, and a second `remove(k)` returns it once more. -/
theorem remove_absent_noop (c : AVLCollection K V) (k : K)
    (hne : c.root ≠ null) (hf : c.find k = none) :
    ∃ c1, c.remove k = some c1 ∧ c1 = c ∧ c1.size = c.size ∧ c1.height = c.height ∧
      c1.find k = none ∧ c1.remove k = some c := by
  have e : c.remove k = some c := by
    obtain ⟨s, t⟩ := c
    cases t with
    | null => exact absurd rfl hne
    | mk k0 v0 h0 l r =>
      simp only [find] at hf
      simp [remove, Node.remove, hf]
  exact ⟨c, e, rfl, rfl, rfl, hf, e⟩

theorem remove_absent_noop_witness :
    (⟨1, Node.mk 1 10 1 null null⟩ : AVLCollection Nat Nat).root ≠ null ∧
    find (⟨1, Node.mk 1 10 1 null null⟩ : AVLCollection Nat Nat) 7 = none ∧
    ∃ c1, remove (⟨1, Node.mk 1 10 1 null null⟩ : AVLCollection Nat Nat) 7 = some c1 ∧
      c1 = ⟨1, Node.mk 1 10 1 null null⟩ ∧
      c1.size = size (⟨1, Node.mk 1 10 1 null null⟩ : AVLCollection Nat Nat) ∧
      c1.height = height (⟨1, Node.mk 1 10 1 null null⟩ : AVLCollection Nat Nat) ∧
      c1.find 7 = none ∧ c1.remove 7 = some ⟨1, Node.mk 1 10 1 null null⟩ :=
  ⟨by decide, by decide,
    remove_absent_noop ⟨1, Node.mk 1 10 1 null null⟩ 7 (by decide) (by decide)⟩

/-- C8. Remove on the empty tree: the code does not do what the claim says.  The
helper's first statement reads `subtree_root -> height` with
`subtree_root == nullptr`, before `find` is consulted, so `remove(k)` on the empty
collection reads a field of an absent node for every key. -/
theorem remove_on_empty_reads_absent_node (k : K) :
    remove (empty : AVLCollection K V) k = none := rfl

/-- C9, as stated, fails: with the key 0 inserted twice (the second copy goes to the
right of the first), `remove(0)` unlinks the first copy only and `find(0)` then
succeeds on the second. -/
theorem find_after_remove_duplicate :
    Reachable (⟨2, Node.mk 0 10 2 null (Node.mk 0 20 1 null null)⟩ : AVLCollection Nat Nat) ∧
    remove (⟨2, Node.mk 0 10 2 null (Node.mk 0 20 1 null null)⟩ : AVLCollection Nat Nat) 0
      = some ⟨1, Node.mk 0 20 1 null null⟩ ∧
    find (⟨1, Node.mk 0 20 1 null null⟩ : AVLCollection Nat Nat) 0 = some 20 :=
  ⟨⟨[Call.add 0 10, Call.add 0 20], by decide⟩, by decide, by decide⟩

/-- C9, amended. Find/remove consistency for a key that is not duplicated: for
every tree and every key `k` that occurs at most once in it (other keys may occur
several times), whenever `remove(k)` returns, `find(k)` on the resulting tree
reports not-found. -/
theorem find_none_after_remove (c c1 : AVLCollection K V) (k : K)
    (hn : (c.keys []).count k ≤ 1) (h : c.remove k = some c1) : c1.find k = none := by
  simp only [keys, inorder_eq, List.nil_append] at hn
  simp only [remove] at h
  cases e : Node.remove c.root k c.root c.tree_size with
  | none => simp [e] at h
  | some p =>
    obtain ⟨t1, s1⟩ := p
    simp only [e, Option.map, Option.some.injEq] at h
    subst h
    rcases remove_toList _ _ _ _ _ _ e with ⟨h1, h2, _⟩ | ⟨_, w, pre, post, q1, q2⟩
    · subst h2
      simp only [find]
      exact h1
    · simp only [find]
      cases ef : Node.find t1 k with
      | none => rfl
      | some w1 =>
        exfalso
        have hm := find_mem t1 k w1 ef
        simp only [keysOf, q1, q2, List.map_append, List.map_cons, List.count_append,
          List.count_cons_self, List.mem_append] at hn hm
        rcases hm with hm | hm
        · have := List.count_pos_iff.mpr hm
          omega
        · have := List.count_pos_iff.mpr hm
          omega

theorem find_none_after_remove_witness :
    (keys (⟨3, Node.mk 1 20 2 (Node.mk 1 10 1 null null) (Node.mk 2 30 1 null null)⟩ :
      AVLCollection Nat Nat) []).count 2 ≤ 1 ∧
    remove (⟨3, Node.mk 1 20 2 (Node.mk 1 10 1 null null) (Node.mk 2 30 1 null null)⟩ :
      AVLCollection Nat Nat) 2
      = some ⟨2, Node.mk 1 20 2 (Node.mk 1 10 1 null null) null⟩ ∧
    find (⟨2, Node.mk 1 20 2 (Node.mk 1 10 1 null null) null⟩ : AVLCollection Nat Nat) 2
      = none :=
  ⟨by decide, by decide,
    find_none_after_remove
      ⟨3, Node.mk 1 20 2 (Node.mk 1 10 1 null null) (Node.mk 2 30 1 null null)⟩
      ⟨2, Node.mk 1 20 2 (Node.mk 1 10 1 null null) null⟩ 2 (by decide) (by decide)⟩

/-- C10. Ordering: in every collection reachable from the empty one by `add` and
`remove` calls (duplicate keys included), `keys()` appends to the vector it is
given the tree's keys in in-order, that sequence is non-decreasing, and `sort()`
produces exactly what `keys()` produces. -/
theorem keys_sorted (c : AVLCollection K V) (h : Reachable c) (all_keys : List K) :
    c.keys all_keys = all_keys ++ keysOf c.root ∧
      (keysOf c.root).Sorted (· ≤ ·) ∧ c.sort all_keys = c.keys all_keys :=
  ⟨inorder_eq c.root all_keys, (reachable_consistent c h).2, rfl⟩

theorem keys_sorted_witness :
    Reachable (⟨3, Node.mk 1 30 2 (Node.mk 1 10 1 null null) (Node.mk 2 20 1 null null)⟩ :
      AVLCollection Nat Nat) ∧
    (keys (⟨3, Node.mk 1 30 2 (Node.mk 1 10 1 null null) (Node.mk 2 20 1 null null)⟩ :
        AVLCollection Nat Nat) [9]
      = [9] ++ keysOf (Node.mk 1 30 2 (Node.mk 1 10 1 null null) (Node.mk 2 20 1 null null) :
          Node Nat Nat) ∧
      (keysOf (Node.mk 1 30 2 (Node.mk 1 10 1 null null) (Node.mk 2 20 1 null null) :
          Node Nat Nat)).Sorted (· ≤ ·) ∧
      sort (⟨3, Node.mk 1 30 2 (Node.mk 1 10 1 null null) (Node.mk 2 20 1 null null)⟩ :
        AVLCollection Nat Nat) [9]
      = keys (⟨3, Node.mk 1 30 2 (Node.mk 1 10 1 null null) (Node.mk 2 20 1 null null)⟩ :
        AVLCollection Nat Nat) [9]) :=
  ⟨⟨[Call.add 1 10, Call.add 2 20, Call.add 1 30, Call.remove 7], by decide⟩,
    keys_sorted ⟨3, Node.mk 1 30 2 (Node.mk 1 10 1 null null) (Node.mk 2 20 1 null null)⟩
      ⟨[Call.add 1 10, Call.add 2 20, Call.add 1 30, Call.remove 7], by decide⟩ [9]⟩

/-- C11, as stated, fails: three insertions of the key 1 end with a left rotation
that puts the first copy of the key into the left subtree of the second, so the
left subtree of the root holds a key that is not strictly less than the root's. -/
theorem search_tree_fails_with_duplicates :
    calls (empty : AVLCollection Nat Nat) [Call.add 1 10, Call.add 1 20, Call.add 1 30]
      = some ⟨3, Node.mk 1 20 2 (Node.mk 1 10 1 null null) (Node.mk 1 30 1 null null)⟩ ∧
    ¬ searchTree (Node.mk 1 20 2 (Node.mk 1 10 1 null null) (Node.mk 1 30 1 null null) :
        Node Nat Nat) := by
  decide

/-- C11, amended. Search-tree invariant with duplicates: in every collection
reachable from the empty one by `add` and `remove` calls, at every node every key
of the left subtree is less than or equal to the node's key and every key of the
right subtree is greater than or equal to it; when no key occurs more than once
in the tree, every key of the left subtree is strictly less than the node's key. -/
theorem search_tree_weak (c : AVLCollection K V) (h : Reachable c) :
    searchTreeWeak c.root ∧ ((c.keys []).Nodup → searchTree c.root) := by
  have hs := (reachable_consistent c h).2
  refine ⟨searchTreeWeak_of_sorted c.root hs, fun hn => ?_⟩
  simp only [keys, inorder_eq, List.nil_append] at hn
  exact searchTree_of_sorted_lt c.root (List.Sorted.lt_of_le hs hn)

theorem search_tree_weak_witness :
    Reachable (⟨3, Node.mk 1 20 2 (Node.mk 1 10 1 null null) (Node.mk 1 30 1 null null)⟩ :
      AVLCollection Nat Nat) ∧
    (searchTreeWeak (Node.mk 1 20 2 (Node.mk 1 10 1 null null) (Node.mk 1 30 1 null null) :
        Node Nat Nat) ∧
      ((keys (⟨3, Node.mk 1 20 2 (Node.mk 1 10 1 null null) (Node.mk 1 30 1 null null)⟩ :
          AVLCollection Nat Nat) []).Nodup →
        searchTree (Node.mk 1 20 2 (Node.mk 1 10 1 null null) (Node.mk 1 30 1 null null) :
          Node Nat Nat))) :=
  ⟨⟨[Call.add 1 10, Call.add 1 20, Call.add 1 30], by decide⟩,
    search_tree_weak ⟨3, Node.mk 1 20 2 (Node.mk 1 10 1 null null) (Node.mk 1 30 1 null null)⟩
      ⟨[Call.add 1 10, Call.add 1 20, Call.add 1 30], by decide⟩⟩

/-- C12. Lookup correctness: in every collection reachable from the empty one by
`add` and `remove` calls and for every key `k`, `find(k, the_val)` returns true
exactly when some node of the tree holds the key `k`; when it returns true,
`the_val` is the value of a node whose key is `k`; when it returns false,
`the_val` is what it was before the call. -/
theorem lookup_correct (c : AVLCollection K V) (h : Reachable c) (k : K) (the_val : V) :
    ((c.find_val k the_val).1 = true ↔ k ∈ keysOf c.root) ∧
      ((c.find_val k the_val).1 = true → (k, (c.find_val k the_val).2) ∈ toList c.root) ∧
      ((c.find_val k the_val).1 = false → (c.find_val k the_val).2 = the_val) := by
  have hs := (reachable_consistent c h).2
  simp only [find_val, find_loop_eq]
  cases e : Node.find c.root k with
  | none =>
    refine ⟨⟨fun hf => by simp at hf, fun hm => ?_⟩, fun hf => by simp at hf, fun _ => rfl⟩
    obtain ⟨w, hw⟩ := find_of_mem c.root k hs hm
    rw [e] at hw
    cases hw
  | some w =>
    exact ⟨⟨fun _ => find_mem c.root k w e, fun _ => rfl⟩, fun _ => find_mem_pair c.root k w e,
      fun hf => by simp at hf⟩

theorem lookup_correct_witness :
    Reachable (⟨2, Node.mk 1 10 2 null (Node.mk 2 20 1 null null)⟩ : AVLCollection Nat Nat) ∧
    (((find_val (⟨2, Node.mk 1 10 2 null (Node.mk 2 20 1 null null)⟩ : AVLCollection Nat Nat)
          2 0).1 = true ↔
        2 ∈ keysOf (Node.mk 1 10 2 null (Node.mk 2 20 1 null null) : Node Nat Nat)) ∧
      ((find_val (⟨2, Node.mk 1 10 2 null (Node.mk 2 20 1 null null)⟩ : AVLCollection Nat Nat)
          2 0).1 = true →
        (2, (find_val (⟨2, Node.mk 1 10 2 null (Node.mk 2 20 1 null null)⟩ :
            AVLCollection Nat Nat) 2 0).2) ∈
          toList (Node.mk 1 10 2 null (Node.mk 2 20 1 null null) : Node Nat Nat)) ∧
      ((find_val (⟨2, Node.mk 1 10 2 null (Node.mk 2 20 1 null null)⟩ : AVLCollection Nat Nat)
          2 0).1 = false →
        (find_val (⟨2, Node.mk 1 10 2 null (Node.mk 2 20 1 null null)⟩ : AVLCollection Nat Nat)
          2 0).2 = 0)) :=
  ⟨⟨[Call.add 1 10, Call.add 2 20], by decide⟩,
    lookup_correct ⟨2, Node.mk 1 10 2 null (Node.mk 2 20 1 null null)⟩
      ⟨[Call.add 1 10, Call.add 2 20], by decide⟩ 2 0⟩

/-- C13. Add-then-find round trip on every reachable tree: the code breaks it.  The
collection below is reachable by fourteen calls that all return, the key 6 is not
present in it, and `add(6, 60)` followed by `find(6)` yields nothing, because
`add` reads `rptr -> right -> height` through an absent node inside `rebalance`
and never returns. -/
theorem add_then_find_fails_on_reachable_tree :
    Reachable (⟨2, Node.mk 5 5 1 (Node.mk 2 2 (-1) null null) null⟩ : AVLCollection Nat Nat) ∧
    find (⟨2, Node.mk 5 5 1 (Node.mk 2 2 (-1) null null) null⟩ : AVLCollection Nat Nat) 6
      = none ∧
    ((add (⟨2, Node.mk 5 5 1 (Node.mk 2 2 (-1) null null) null⟩ : AVLCollection Nat Nat) 6 60).bind
      fun c1 => c1.find 6) = none :=
  ⟨⟨[Call.add 0 0, Call.add 1 1, Call.add 2 2, Call.add 3 3, Call.add 4 4, Call.remove 0,
      Call.remove 2, Call.add 5 5, Call.add 0 0, Call.add 2 2, Call.remove 4, Call.remove 0,
      Call.remove 3, Call.remove 1], by decide⟩, by decide, by decide⟩

/-- C14. Range completeness: for every tree of any shape and all keys `k1`, `k2`,
the range `find(k1, k2, vals)` returns, and what it appends to `vals` is, as a
multiset, exactly the values of the nodes whose key lies in `[k1, k2]`, one value
per such node. -/
theorem range_complete (c : AVLCollection K V) (k1 k2 : K) (vals : List V) :
    ∃ ws, c.find_range k1 k2 vals = some (vals ++ ws) ∧
      ws.Perm (((toList c.root).filter fun p => decide (k1 ≤ p.1 ∧ p.1 ≤ k2)).map Prod.snd) :=
  range_search_spec c.root k1 k2 vals

/-- C15. Copy preserves content: for every source collection reachable from the
empty one by `add` and `remove` calls, assignment to any destination and copy
construction return the same collection, whose `size()` is the source's, whose
(key, value) pairs are the source's as a multiset, and whose `keys()` sequence is
the source's. -/
theorem copy_preserves_content (rhs dst : AVLCollection K V) (h : Reachable rhs) :
    ∃ c, assign dst rhs = some c ∧ copy rhs = some c ∧ c.size = rhs.size ∧
      (toList c.root).Perm (toList rhs.root) ∧ ∀ ks, c.keys ks = rhs.keys ks := by
  have hc := reachable_consistent rhs h
  obtain ⟨c, e, _, _, p, s, o⟩ :=
    preorder_copy_spec rhs.root (⟨0, null⟩ : AVLCollection K V) trivial trivial
  simp only [toList, List.append_nil, zero_add] at p s
  refine ⟨c, e, e, ?_, p, fun ks => ?_⟩
  · simp only [size, s, hc.1]
  · simp only [keys, inorder_eq]
    congr 1
    have hs : (keysOf c.root).Pairwise (· ≤ ·) := o (by simp [keysOf, toList])
    exact List.eq_of_perm_of_sorted (p.map Prod.fst) hs hc.2

theorem copy_preserves_content_witness :
    Reachable (⟨2, Node.mk 1 10 2 null (Node.mk 2 20 1 null null)⟩ : AVLCollection Nat Nat) ∧
    ∃ c, assign (⟨1, Node.mk 7 70 1 null null⟩ : AVLCollection Nat Nat)
          ⟨2, Node.mk 1 10 2 null (Node.mk 2 20 1 null null)⟩ = some c ∧
      copy (⟨2, Node.mk 1 10 2 null (Node.mk 2 20 1 null null)⟩ : AVLCollection Nat Nat)
        = some c ∧
      c.size = size (⟨2, Node.mk 1 10 2 null (Node.mk 2 20 1 null null)⟩ :
        AVLCollection Nat Nat) ∧
      (toList c.root).Perm
        (toList (Node.mk 1 10 2 null (Node.mk 2 20 1 null null) : Node Nat Nat)) ∧
      ∀ ks, c.keys ks = keys (⟨2, Node.mk 1 10 2 null (Node.mk 2 20 1 null null)⟩ :
        AVLCollection Nat Nat) ks :=
  ⟨⟨[Call.add 1 10, Call.add 2 20], by decide⟩,
    copy_preserves_content ⟨2, Node.mk 1 10 2 null (Node.mk 2 20 1 null null)⟩
      ⟨1, Node.mk 7 70 1 null null⟩ ⟨[Call.add 1 10, Call.add 2 20], by decide⟩⟩

/-- C17. Positive node heights in every reachable tree: the code breaks it.  After
five insertions and four removals, all of which return, the collection holds the
single node 1 with stored height 0: a node with stored height below 1, and a
non-empty tree (`size()` = 1) for which `height()` returns 0. -/
theorem nonpositive_height_reachable :
    calls (empty : AVLCollection Nat Nat)
        [Call.add 0 0, Call.add 1 1, Call.add 2 2, Call.add 3 3, Call.add 4 4, Call.remove 0,
          Call.remove 2, Call.remove 3, Call.remove 4]
      = some ⟨1, Node.mk 1 1 0 null null⟩ ∧
    ¬ positiveHeights (Node.mk 1 1 0 null null : Node Nat Nat) ∧
    height (⟨1, Node.mk 1 1 0 null null⟩ : AVLCollection Nat Nat) = 0 ∧
    size (⟨1, Node.mk 1 1 0 null null⟩ : AVLCollection Nat Nat) = 1 := by
  decide

/-- C18. Logarithmic depth of every reachable tree: the code breaks it.  After five
insertions, `remove(0)` and `remove(3)`, the tree is the chain 4, 1, 2: three
nodes on one root-to-leaf path of three nodes, fewer than `fib 5 - 1 = 4`. -/
theorem depth_bound_broken_by_remove :
    calls (empty : AVLCollection Nat Nat)
        [Call.add 0 0, Call.add 1 1, Call.add 2 2, Call.add 3 3, Call.add 4 4, Call.remove 0,
          Call.remove 3]
      = some ⟨3, Node.mk 4 4 2 (Node.mk 1 1 1 null (Node.mk 2 2 1 null null)) null⟩ ∧
    count (Node.mk 4 4 2 (Node.mk 1 1 1 null (Node.mk 2 2 1 null null)) null : Node Nat Nat)
      = 3 ∧
    depth (Node.mk 4 4 2 (Node.mk 1 1 1 null (Node.mk 2 2 1 null null)) null : Node Nat Nat)
      = 3 ∧
    ¬ (count (Node.mk 4 4 2 (Node.mk 1 1 1 null (Node.mk 2 2 1 null null)) null : Node Nat Nat)
      ≥ fib (depth (Node.mk 4 4 2 (Node.mk 1 1 1 null (Node.mk 2 2 1 null null)) null :
          Node Nat Nat) + 2) - 1) := by
  decide

/-- C19. Rebalance contract, deletion case included: the code breaks it.  The node
1 below has no left child and a right child 3 of height 2 whose two children are
leaves (both subtrees satisfy the invariants, the child heights differ by 2, the
taller child has children of equal height); it is the node `rebalance` is called
on when `remove(0)` unwinds in the tree 1(0, 3(2, 5)).  `rebalance` rotates left
and stores `tmpHeight = 1` in node 1, which now has the leaf 2 as a child: the
height invariant fails at the left child of the returned root. -/
theorem rebalance_breaks_height_in_deletion_case :
    heightInv (Node.mk 3 3 2 (Node.mk 2 2 1 null null) (Node.mk 5 5 1 null null) : Node Nat Nat) ∧
    balanced (Node.mk 3 3 2 (Node.mk 2 2 1 null null) (Node.mk 5 5 1 null null) : Node Nat Nat) ∧
    rebalance (Node.mk 1 1 3 null
        (Node.mk 3 3 2 (Node.mk 2 2 1 null null) (Node.mk 5 5 1 null null)) : Node Nat Nat)
      = some (Node.mk 3 3 2 (Node.mk 1 1 1 null (Node.mk 2 2 1 null null))
          (Node.mk 5 5 1 null null)) ∧
    ¬ heightAt (Node.mk 1 1 1 null (Node.mk 2 2 1 null null) : Node Nat Nat) := by
  decide

/-- C20. Removal never grows the height: the code breaks it.  Twelve calls that all
return lead to the tree with root 6 of stored height 0 over the leaf 4;
`remove(6)` splices the leaf in, and `height()` goes from 0 to 1. -/
theorem remove_grows_height :
    calls (empty : AVLCollection Nat Nat)
        [Call.add 0 0, Call.add 1 1, Call.add 2 2, Call.add 3 3, Call.add 4 4, Call.remove 0,
          Call.add 5 5, Call.add 6 6, Call.remove 2, Call.remove 5, Call.remove 1,
          Call.remove 3]
      = some ⟨2, Node.mk 6 6 0 (Node.mk 4 4 1 null null) null⟩ ∧
    remove (⟨2, Node.mk 6 6 0 (Node.mk 4 4 1 null null) null⟩ : AVLCollection Nat Nat) 6
      = some ⟨1, Node.mk 4 4 1 null null⟩ ∧
    height (⟨2, Node.mk 6 6 0 (Node.mk 4 4 1 null null) null⟩ : AVLCollection Nat Nat) = 0 ∧
    height (⟨1, Node.mk 4 4 1 null null⟩ : AVLCollection Nat Nat) = 1 := by
  decide

omit [LinearOrder K] in
/-- C21. Rotations preserve order: for every node `x` with a left child,
`rotate_right(x)` returns a tree whose in-order sequence of (key, value) pairs is
that of `x`, and for every node `x` with a right child `rotate_left(x)` does the
same; the number of nodes is unchanged, so no node is added, dropped or
duplicated. -/
theorem rotations_preserve_order (k : K) (v : V) (h : Int) (k1 : K) (v1 : V) (h1 : Int)
    (a b c : Node K V) :
    (∃ t, rotate_right (Node.mk k v h (Node.mk k1 v1 h1 a b) c) = some t ∧
      toList t = toList (Node.mk k v h (Node.mk k1 v1 h1 a b) c) ∧
      count t = count (Node.mk k v h (Node.mk k1 v1 h1 a b) c)) ∧
    (∃ t, rotate_left (Node.mk k v h a (Node.mk k1 v1 h1 b c)) = some t ∧
      toList t = toList (Node.mk k v h a (Node.mk k1 v1 h1 b c)) ∧
      count t = count (Node.mk k v h a (Node.mk k1 v1 h1 b c))) := by
  obtain ⟨t, e, p⟩ := rotate_right_toList k v h k1 v1 h1 a b c
  obtain ⟨u, f, q⟩ := rotate_left_toList k v h k1 v1 h1 a b c
  exact ⟨⟨t, e, p, by rw [count_eq_length, count_eq_length, p]⟩,
    ⟨u, f, q, by rw [count_eq_length, count_eq_length, q]⟩⟩

/-- C22. Remove's descent is safe when the key is present: the code breaks it.
Eleven calls that all return lead to the tree 5 over the leaves 2 and 6, whose
in-order key sequence 2, 5, 6 is non-decreasing and in which `find(6)` succeeds,
but whose leaf 2 carries the stored height 2 (line 533 gave it the height of the
node it replaced, line 481 only decremented it).  `remove(6)` reaches the node 6
and unlinks it; on the way back `rebalance` on the root sees
`heightL - heightR = 2`, takes the left-heavy branch with `heightLL <= heightLR`
(0 and 0) and reads `lptr -> right -> height` through the absent right child of
the leaf 2. -/
theorem remove_present_key_reads_absent_node :
    calls (empty : AVLCollection Nat Nat)
        [Call.add 0 0, Call.add 1 1, Call.add 2 2, Call.add 4 4, Call.add 5 5, Call.add 6 6,
          Call.add 3 3, Call.remove 1, Call.remove 0, Call.remove 3, Call.remove 4]
      = some ⟨3, Node.mk 5 5 3 (Node.mk 2 2 2 null null) (Node.mk 6 6 1 null null)⟩ ∧
    (keysOf (Node.mk 5 5 3 (Node.mk 2 2 2 null null) (Node.mk 6 6 1 null null) :
      Node Nat Nat)).Sorted (· ≤ ·) ∧
    Node.find (Node.mk 5 5 3 (Node.mk 2 2 2 null null) (Node.mk 6 6 1 null null) :
      Node Nat Nat) 6 = some 6 ∧
    Node.remove (Node.mk 5 5 3 (Node.mk 2 2 2 null null) (Node.mk 6 6 1 null null) :
        Node Nat Nat) 6
      (Node.mk 5 5 3 (Node.mk 2 2 2 null null) (Node.mk 6 6 1 null null)) 3 = none ∧
    faultOf (remove_traced
      (Node.mk 5 5 3 (Node.mk 2 2 2 null null) (Node.mk 6 6 1 null null) : Node Nat Nat) 6
      (Node.mk 5 5 3 (Node.mk 2 2 2 null null) (Node.mk 6 6 1 null null)) 3)
      = some Fault.rebalancing := by
  decide

/-- What does hold of the descent of `remove`: for every non-empty tree, whatever
its stored heights, and every key `k` for which `find(k)` succeeds, the recursive
helper reaches a node whose key equals `k` before an absent position, so neither
the height read on entry nor the successor walk reads a field of an absent node,
and a call that returns has decremented `tree_size` once.  Only a read inside
`rebalance` can go through an absent node, and when the tree satisfies the height
and balance invariants at every node none does: the helper returns. -/
theorem remove_descent_safe (t : Node K V) (k : K) (s : Int) (w : V)
    (hf : Node.find t k = some w) :
    remove_traced t k t s ≠ Except.error Fault.entry ∧
      remove_traced t k t s ≠ Except.error Fault.successor ∧
      (∀ t1 s1, Node.remove t k t s = some (t1, s1) → s1 = s - 1) ∧
      (heightInv t → balanced t → ∃ t1, Node.remove t k t s = some (t1, s - 1)) := by
  refine ⟨?_, ?_, ?_, ?_⟩
  · rcases remove_traced_no_entry_fault t k t s w hf with ⟨p, e⟩ | e <;> rw [e] <;> simp
  · rcases remove_traced_no_entry_fault t k t s w hf with ⟨p, e⟩ | e <;> rw [e] <;> simp
  · intro t1 s1 e
    rcases remove_toList t k t s t1 s1 e with ⟨hn, _⟩ | ⟨h1, _⟩
    · rw [hf] at hn; cases hn
    · exact h1
  · intro hh hb
    obtain ⟨t1, e, _⟩ := remove_avl t k t s w w hf hf hh hb
    exact ⟨t1, e⟩

theorem remove_descent_safe_witness :
    Node.find (Node.mk 2 20 2 (Node.mk 1 10 1 null null) null : Node Nat Nat) 1 = some 10 ∧
    (remove_traced (Node.mk 2 20 2 (Node.mk 1 10 1 null null) null : Node Nat Nat) 1
        (Node.mk 2 20 2 (Node.mk 1 10 1 null null) null) 2 ≠ Except.error Fault.entry ∧
      remove_traced (Node.mk 2 20 2 (Node.mk 1 10 1 null null) null : Node Nat Nat) 1
        (Node.mk 2 20 2 (Node.mk 1 10 1 null null) null) 2 ≠ Except.error Fault.successor ∧
      (∀ t1 s1, Node.remove (Node.mk 2 20 2 (Node.mk 1 10 1 null null) null : Node Nat Nat) 1
        (Node.mk 2 20 2 (Node.mk 1 10 1 null null) null) 2 = some (t1, s1) → s1 = 2 - 1) ∧
      (heightInv (Node.mk 2 20 2 (Node.mk 1 10 1 null null) null : Node Nat Nat) →
        balanced (Node.mk 2 20 2 (Node.mk 1 10 1 null null) null : Node Nat Nat) →
        ∃ t1, Node.remove (Node.mk 2 20 2 (Node.mk 1 10 1 null null) null : Node Nat Nat) 1
          (Node.mk 2 20 2 (Node.mk 1 10 1 null null) null) 2 = some (t1, 2 - 1))) :=
  ⟨by decide,
    remove_descent_safe (Node.mk 2 20 2 (Node.mk 1 10 1 null null) null) 1 2 10 (by decide)⟩

end AVLCollection
